import Mathlib

/-!
Verification of the tag-resolution and link-injection engine of the
hl-chatbot-server backend (`src/index.js`).

The JavaScript string pipeline is shallowly embedded: strings are lists of
characters (`Str`), each concrete regular expression of the source is
implemented as a deterministic matcher with JavaScript first-match /
global-replace semantics (the patterns involved never need backtracking
beyond what the matchers implement, as argued in the comments), and the
exception that the builtin `decodeURIComponent` raises on a malformed
percent-sequence is threaded with `Except Unit` (a thrown exception aborts
the request handler, so no reply text is produced).

The allow-list `tags_unique.json` is external data loaded at startup; every
definition is parameterized by `allowed : List Str`.
-/

abbrev Str := List Char

/-- Characters matched by the JavaScript regex class `\s` (ASCII range; the
engine's texts are ASCII). -/
def jsWs (c : Char) : Bool :=
  c = ' ' || c = '\t' || c = '\n' || c = '\r' || c = '\x0b' || c = '\x0c'

/-- JavaScript word characters, the regex class `\w`: `[A-Za-z0-9_]`. -/
def jsWordChar (c : Char) : Bool :=
  ('a' ≤ c && c ≤ 'z') || ('A' ≤ c && c ≤ 'Z') || ('0' ≤ c && c ≤ '9') || c = '_'

/-- `String.prototype.toLowerCase` on the ASCII strings this engine handles:
ASCII lower-casing, character by character. -/
def toLowerStr (s : Str) : Str := s.map Char.toLower

/-- `String.prototype.trim`: strip the whitespace characters from both ends. -/
def jsTrim (s : Str) : Str :=
  ((s.dropWhile jsWs).reverse.dropWhile jsWs).reverse

/-- Case-insensitive character equality (ASCII). -/
def ciEq (a b : Char) : Bool := a.toLower = b.toLower

/-- Case-insensitive test that `pat` is an initial segment of `s`. -/
def ciStarts : Str → Str → Bool
  | [], _ => true
  | _ :: _, [] => false
  | p :: ps, c :: cs => ciEq c p && ciStarts ps cs

/-- Exact test that `pat` is an initial segment of `s`. -/
def litStarts : Str → Str → Bool
  | [], _ => true
  | _ :: _, [] => false
  | p :: ps, c :: cs => (c = p) && litStarts ps cs

/-- `sub` occurs (case-sensitively) somewhere in `s`. -/
def containsSub (sub : Str) : Str → Bool
  | [] => litStarts sub []
  | c :: r => litStarts sub (c :: r) || containsSub sub r

/-- `sub` occurs case-insensitively somewhere in `s`. -/
def containsSubCI (sub : Str) : Str → Bool
  | [] => ciStarts sub []
  | c :: r => ciStarts sub (c :: r) || containsSubCI sub r

/- ====== encodeURIComponent / decodeURIComponent (JS builtins) ====== -/

/-- Characters that `encodeURIComponent` leaves unescaped. -/
def uriUnreserved (c : Char) : Bool :=
  ('a' ≤ c && c ≤ 'z') || ('A' ≤ c && c ≤ 'Z') || ('0' ≤ c && c ≤ '9') ||
  c = '-' || c = '_' || c = '.' || c = '!' || c = '~' || c = '*' ||
  c = '\'' || c = '(' || c = ')'

/-- Upper-case hexadecimal digit for a value below 16. -/
def hexDigit (n : Nat) : Char :=
  if n < 10 then Char.ofNat (48 + n) else Char.ofNat (55 + n)

/-- The UTF-8 bytes of one character. -/
def utf8Bytes (c : Char) : List Nat :=
  let n := c.toNat
  if n < 0x80 then [n]
  else if n < 0x800 then [0xC0 + n / 64, 0x80 + n % 64]
  else if n < 0x10000 then [0xE0 + n / 4096, 0x80 + n / 64 % 64, 0x80 + n % 64]
  else [0xF0 + n / 262144, 0x80 + n / 4096 % 64, 0x80 + n / 64 % 64, 0x80 + n % 64]

/-- Percent-escape of one byte, upper-case hex as the builtin produces. -/
def pctOfByte (b : Nat) : Str := ['%', hexDigit (b / 16), hexDigit (b % 16)]

/-- The `encodeURIComponent` builtin. -/
def encodeURIComponent : Str → Str
  | [] => []
  | c :: r =>
    (if uriUnreserved c then [c]
     else (utf8Bytes c).foldr (fun b acc => pctOfByte b ++ acc) []) ++
    encodeURIComponent r

/-- Numeric value of a hexadecimal digit character. -/
def hexVal (c : Char) : Option Nat :=
  if '0' ≤ c ∧ c ≤ '9' then some (c.toNat - 48)
  else if 'A' ≤ c ∧ c ≤ 'F' then some (c.toNat - 55)
  else if 'a' ≤ c ∧ c ≤ 'f' then some (c.toNat - 87)
  else none

/-- Read one `%XX` escape (the `%` not yet consumed). -/
def readPctByte : Str → Option (Nat × Str)
  | '%' :: h1 :: h2 :: r =>
    match hexVal h1, hexVal h2 with
    | some a, some b => some (a * 16 + b, r)
    | _, _ => none
  | _ => none

/-- Read one UTF-8 continuation byte given as a `%XX` escape. -/
def readContByte (s : Str) : Option (Nat × Str) :=
  match readPctByte s with
  | some (b, r) => if 0x80 ≤ b ∧ b ≤ 0xBF then some (b - 0x80, r) else none
  | none => none

/-- One step of percent-decoding: decode the escape sequence starting at a
`%` (including multi-byte UTF-8 sequences), or fail as the builtin throws. -/
def decodePctStep (s : Str) : Option (Char × Str) :=
  match readPctByte s with
  | none => none
  | some (b1, r1) =>
    if b1 < 0x80 then some (Char.ofNat b1, r1)
    else if b1 < 0xC2 then none
    else if b1 ≤ 0xDF then
      match readContByte r1 with
      | some (b2, r2) => some (Char.ofNat ((b1 - 0xC0) * 64 + b2), r2)
      | none => none
    else if b1 ≤ 0xEF then
      match readContByte r1 with
      | some (b2, r2) =>
        match readContByte r2 with
        | some (b3, r3) =>
          let cp := (b1 - 0xE0) * 4096 + b2 * 64 + b3
          if cp < 0x800 ∨ (0xD800 ≤ cp ∧ cp ≤ 0xDFFF) then none
          else some (Char.ofNat cp, r3)
        | none => none
      | none => none
    else if b1 ≤ 0xF4 then
      match readContByte r1 with
      | some (b2, r2) =>
        match readContByte r2 with
        | some (b3, r3) =>
          match readContByte r3 with
          | some (b4, r4) =>
            let cp := (b1 - 0xF0) * 262144 + b2 * 4096 + b3 * 64 + b4
            if cp < 0x10000 ∨ 0x10FFFF < cp then none
            else some (Char.ofNat cp, r4)
          | none => none
        | none => none
      | none => none
    else none

/-- Fueled worker for `decodeURIComponent?`; the fuel is an upper bound on
the string length, each step consumes at least one character. -/
def decodePctGo : Nat → Str → Option Str
  | _, [] => some []
  | 0, _ :: _ => none
  | fuel + 1, '%' :: r =>
    match decodePctStep ('%' :: r) with
    | some (c, rest) => (decodePctGo fuel rest).map (c :: ·)
    | none => none
  | fuel + 1, c :: r => (decodePctGo fuel r).map (c :: ·)

/-- The `decodeURIComponent` builtin; `none` models the `URIError` it throws
on a malformed escape sequence. -/
def decodeURIComponent? (s : Str) : Option Str := decodePctGo s.length s

/- ====== Scan/replace combinators: JS `String.replace` semantics ====== -/

/-- Global regex replace, `s.replace(/pat/g, f)`: scan left to right; a
matcher returns `(k, a)` when it matches `k + 1` characters at the current
position with payload `a`; matched spans are replaced by `f a` and scanning
resumes after the span (JS does not rescan replacement text).  The fuel is
an upper bound on the remaining length. -/
def scanGo (m : Str → Option (Nat × α)) (f : α → Str) : Nat → Str → Str
  | _, [] => []
  | 0, l => l
  | fuel + 1, c :: rest =>
    match m (c :: rest) with
    | some (k, a) => f a ++ scanGo m f fuel (rest.drop k)
    | none => c :: scanGo m f fuel rest

/-- `scanGo` with a replacement function that can raise (JS callback
exceptions propagate out of `String.replace`). -/
def scanGoE (m : Str → Option (Nat × α)) (f : α → Except Unit Str) :
    Nat → Str → Except Unit Str
  | _, [] => .ok []
  | 0, l => .ok l
  | fuel + 1, c :: rest =>
    match m (c :: rest) with
    | some (k, a) => do
      let rep ← f a
      let tail ← scanGoE m f fuel (rest.drop k)
      pure (rep ++ tail)
    | none => do
      let tail ← scanGoE m f fuel rest
      pure (c :: tail)

/-- Non-global replace of the first match only, `s.replace(/pat/, f)`. -/
def replaceFirstGo (m : Str → Option (Nat × α)) (f : α → Str) :
    Nat → Str → Str
  | _, [] => []
  | 0, l => l
  | fuel + 1, c :: rest =>
    match m (c :: rest) with
    | some (k, a) => f a ++ rest.drop k
    | none => c :: replaceFirstGo m f fuel rest

/- ====== Tag registry (src/index.js lines 18-28, 44-55, 63-79, 117-132) ====== -/

/-- `SERVICE_TAG_BLOCKLIST` (line 44). -/
def SERVICE_TAG_BLOCKLIST : List Str :=
  ["Cancer", "Cancer Support", "Breast Cancer", "Oncology", "Chemotherapy",
   "Radiation"].map String.toList

/-- The ordered fallback preference list inside `serviceFallbackFor`
(line 50). -/
def fallbackPrefList : List Str :=
  ["Stress", "Sleep", "Anxiety", "Bodywork", "Adapt & Thrive"].map String.toList

/-- `serviceFallbackFor` (lines 49-55): the first preference present in the
allow-list, or `none`. -/
def serviceFallbackFor (allowed : List Str) : Option Str :=
  fallbackPrefList.find? (fun p => allowed.contains p)

/-- `TAG_DENYLIST_FOOTER` (lines 117-121). -/
def TAG_DENYLIST_FOOTER : List Str :=
  ["Services", "Supplements", "Gifts", "Gift Cards", "Gifts For Her",
   "Gifts for Her", "Clothing", "T-shirts", "Unisex", "Jewelry", "Home Decor",
   "Wall Tapestries", "Notebooks/Journals", "Recorded Meditations",
   "Personal Care"].map String.toList

/-- `KEYWORD_TAG_GRAPH` (lines 63-71). -/
def KEYWORD_TAG_GRAPH : List (Str × List Str) :=
  [("Anxiety", ["Stress", "Sleep", "Mood", "Magnesium", "Brain", "Adapt & Thrive"]),
   ("Sleep", ["Anxiety", "Stress", "Magnesium", "Mood"]),
   ("Stress", ["Anxiety", "Sleep", "Adapt & Thrive", "Magnesium", "Mood"]),
   ("Digestion", ["Gut Health", "Probiotics", "Enzymes", "Leaky Gut"]),
   ("Brain", ["Memory & Focus", "Mood", "Omega-3s"]),
   ("Immune Support", ["Antioxidants"]),
   ("Detox", ["Heavy Metal Detox", "Liver", "Kidneys"])].map
    (fun p => (p.1.toList, p.2.map String.toList))

/-- Lookup in `KEYWORD_TAG_GRAPH` (`KEYWORD_TAG_GRAPH[t] || []`). -/
def graphRelated (t : Str) : List Str :=
  match KEYWORD_TAG_GRAPH.find? (fun p => p.1 = t) with
  | some p => p.2
  | none => []

/- ====== Link builders (lines 74-92) ====== -/

/-- `makeServicesLink` (line 74). -/
def makeServicesLink (t : Str) : Str :=
  "https://shop.healthandlight.com/collections/services?filter.p.tag=".toList ++
    encodeURIComponent t

/-- `makeSuppsLink` (line 76). -/
def makeSuppsLink (t : Str) : Str :=
  "https://shop.healthandlight.com/collections/nutritional-supplements?filter.p.tag=".toList ++
    encodeURIComponent t

/-- `makeAllLink` (line 78). -/
def makeAllLink (t : Str) : Str :=
  "https://shop.healthandlight.com/collections/all?filter.p.tag=".toList ++
    encodeURIComponent t

/-- A maximal run of characters satisfying `p` is collapsed to `rep`; the
effect of `s.replace(/X+/g, rep)` for a character class `X`.  The flag
tracks whether the previous character was inside a run. -/
def collapseRuns (p : Char → Bool) (rep : Char) : Str → Bool → Str
  | [], _ => []
  | c :: r, inRun =>
    if p c then
      (if inRun then [] else [rep]) ++ collapseRuns p rep r true
    else
      c :: collapseRuns p rep r false

/-- `.replace(/&/g, 'and')` (line 85). -/
def ampToAnd (s : Str) : Str :=
  s.foldr (fun c acc => (if c = '&' then "and".toList else [c]) ++ acc) []

/-- The character class kept by `.replace(/[^a-z0-9\s-]/g, '')` (line 86). -/
def slugKeep (c : Char) : Bool :=
  ('a' ≤ c && c ≤ 'z') || ('0' ≤ c && c ≤ '9') || jsWs c || c = '-'

/-- `slugifyTagForBlog` (lines 82-90): lower-case, `&`→`and`, strip
characters outside `[a-z0-9\s-]`, trim, whitespace runs→`-` (line 88),
collapse `-` runs (line 89). -/
def slugifyTagForBlog (tag : Str) : Str :=
  collapseRuns (fun c => c = '-') '-'
    (collapseRuns jsWs '-' (jsTrim ((ampToAnd (toLowerStr tag)).filter slugKeep))
      false)
    false

/-- `makeArticlesLink` (line 91). -/
def makeArticlesLink (t : Str) : Str :=
  "https://shop.healthandlight.com/blogs/news/tagged/".toList ++ slugifyTagForBlog t

/- ====== normalizeTag (lines 97-101) ====== -/

/-- The map `allowedTagsLowerMap` (line 28): a JS `Map` built from
`allowed.map(t => [t.toLowerCase(), t])`, in which a later entry with the
same key overwrites an earlier one — so lookup returns the last tag whose
lower-casing is `key`. -/
def lowerLookup (allowed : List Str) (key : Str) : Option Str :=
  (allowed.filter (fun t => toLowerStr t = key)).getLast?

/-- `normalizeTag` (lines 97-101).  `none` input models a JS falsy argument
(`null`/`undefined`); the error case is the `URIError` escaping from
`decodeURIComponent`. -/
def normalizeTag (allowed : List Str) : Option Str → Except Unit (Option Str)
  | none => .ok none
  | some s =>
    if s = [] then .ok none
    else
      match decodeURIComponent? s with
      | none => .error ()
      | some d => .ok (lowerLookup allowed (toLowerStr (jsTrim d)))

/-- JS truthiness of the `preferredTag` variable (`null`/`undefined`/empty
string are falsy). -/
def isTruthy : Option Str → Bool
  | none => false
  | some [] => false
  | some (_ :: _) => true

/- ====== Placeholder resolver: convertPlaceholders (lines 158-181) ====== -/

/-- The three placeholder kinds of the regex alternation
`(SERVICES_TAG|SUPPLEMENTS_TAG|ARTICLES_TAG)`. -/
inductive PKind | services | supplements | articles
deriving DecidableEq, Repr

/-- Match `\s*([^\]]+)\]` (the part of the placeholder pattern after the
colon).  Returns the number of characters consumed and the capture.  The
greedy `\s*` backtracks by exactly one character when everything before the
closing bracket is whitespace, because the mandatory `[^\]]+` then takes
that final whitespace character. -/
def placeCapture (r : Str) : Option (Nat × Str) :=
  match (r.dropWhile jsWs).takeWhile (fun c => c ≠ ']') with
  | [] =>
    match (r.takeWhile jsWs).getLast? with
    | none => none
    | some w =>
      match r.dropWhile jsWs with
      | ']' :: _ => some ((r.takeWhile jsWs).length + 1, [w])
      | _ => none
  | _ :: _ =>
    match (r.dropWhile jsWs).dropWhile (fun c => c ≠ ']') with
    | ']' :: _ =>
      some ((r.takeWhile jsWs).length +
              ((r.dropWhile jsWs).takeWhile (fun c => c ≠ ']')).length + 1,
            (r.dropWhile jsWs).takeWhile (fun c => c ≠ ']'))
    | _ => none

/-- Matcher for `/\[(SERVICES_TAG|SUPPLEMENTS_TAG|ARTICLES_TAG):\s*([^\]]+)\]/gi`
(line 161).  The three keywords differ in their second character, so at most
one alternative can apply at a given position. -/
def matchPlaceholder : Str → Option (Nat × (PKind × Str))
  | [] => none
  | c :: r =>
    if c ≠ '[' then none
    else if ciStarts "SERVICES_TAG:".toList r then
      match placeCapture (r.drop 13) with
      | some (n, cap) => some (13 + n, (PKind.services, cap))
      | none => none
    else if ciStarts "SUPPLEMENTS_TAG:".toList r then
      match placeCapture (r.drop 16) with
      | some (n, cap) => some (16 + n, (PKind.supplements, cap))
      | none => none
    else if ciStarts "ARTICLES_TAG:".toList r then
      match placeCapture (r.drop 13) with
      | some (n, cap) => some (13 + n, (PKind.articles, cap))
      | none => none
    else none

/-- The replacement callback of `convertPlaceholders` (lines 161-180). -/
def placeholderRepl (allowed : List Str) (pref : Option Str)
    (p : PKind × Str) : Except Unit Str := do
  let t1 ← normalizeTag allowed (some p.2)
  let tag? ← match t1 with
    | some t => pure (some t)
    | none => normalizeTag allowed pref
  match tag? with
  | none => pure []
  | some tag =>
    match p.1 with
    | .services =>
      let tag2 := if SERVICE_TAG_BLOCKLIST.contains tag then
          serviceFallbackFor allowed else some tag
      match tag2 with
      | none => pure []
      | some t =>
        pure ("[Supportive Services (".toList ++ t ++ ")](".toList ++
              makeServicesLink t ++ [')'])
    | .supplements =>
      pure ("[Explore Supplements (".toList ++ tag ++ ")](".toList ++
            makeSuppsLink tag ++ [')'])
    | .articles =>
      pure ("[Read Articles (".toList ++ tag ++ ")](".toList ++
            makeArticlesLink tag ++ [')'])

/-- `convertPlaceholders` (lines 158-181). -/
def convertPlaceholders (allowed : List Str) (reply : Str)
    (pref : Option Str) : Except Unit Str :=
  if reply = [] then .ok reply
  else scanGoE matchPlaceholder (placeholderRepl allowed pref) reply.length reply

/- ====== Link sanitizer: sanitizeLinks (lines 184-218) ====== -/

/-- The collection alternatives of the raw-link regex (line 189). -/
inductive CollKind | services | supps | all
deriving DecidableEq, Repr

/-- Literal text of each collection alternative. -/
def collLit : CollKind → Str
  | .services => "services".toList
  | .supps => "nutritional-supplements".toList
  | .all => "all".toList

/-- Literal group 1 of the raw collection-link regex. -/
def collBase : Str := "https://shop.healthandlight.com/collections/".toList

/-- Literal group 3 of the raw collection-link regex. -/
def qsLit : Str := "?filter.p.tag=".toList

/-- A character that terminates the tag capture `[^\s)\]]+`. -/
def capStop (c : Char) : Bool := jsWs c || c = ')' || c = ']'

/-- Matcher for the raw collection-link regex (line 189):
`(https:\/\/shop\.healthandlight\.com\/collections\/)(services|nutritional-supplements|all)(\?filter\.p\.tag=)([^\s)\]]+)`
with flags `gi`.  Payload: captured base, collection kind, captured
collection text, captured raw tag (all in original casing, as the
replacement reuses them).  The three alternatives start with distinct
letters, so at most one can apply. -/
def matchCollLink (s : Str) :
    Option (Nat × (Str × CollKind × Str × Str)) :=
  if ciStarts collBase s then
    let b := s.take collBase.length
    let r := s.drop collBase.length
    let k? : Option CollKind :=
      if ciStarts (collLit .services) r then some .services
      else if ciStarts (collLit .supps) r then some .supps
      else if ciStarts (collLit .all) r then some .all
      else none
    match k? with
    | none => none
    | some k =>
      let cl := (collLit k).length
      let collCap := r.take cl
      let r1 := r.drop cl
      if ciStarts qsLit r1 then
        let r2 := r1.drop qsLit.length
        let raw := r2.takeWhile (fun c => !capStop c)
        match raw with
        | [] => none
        | _ :: _ =>
          some (collBase.length + cl + qsLit.length + raw.length - 1,
                (b, k, collCap, raw))
      else none
  else none

/-- The replacement callback for raw collection links (lines 190-203). -/
def collLinkRepl (allowed : List Str) (pref : Option Str)
    (p : Str × CollKind × Str × Str) : Except Unit Str := do
  let (b, _k, collCap, raw) := p
  let t1 ← normalizeTag allowed (some raw)
  let tag? ← match t1 with
    | some t => pure (some t)
    | none => normalizeTag allowed pref
  match tag? with
  | none => pure (b ++ collCap)
  | some tag =>
    let tag2 := if toLowerStr collCap = "services".toList &&
                   SERVICE_TAG_BLOCKLIST.contains tag then
        serviceFallbackFor allowed else some tag
    match tag2 with
    | none => pure (b ++ collCap)
    | some t =>
      if toLowerStr collCap = "services".toList then pure (makeServicesLink t)
      else if toLowerStr collCap = "nutritional-supplements".toList then
        pure (makeSuppsLink t)
      else pure (makeAllLink t)

/-- Literal group 1 of the blog-link regex (line 208). -/
def blogBase : Str := "https://shop.healthandlight.com/blogs/news/tagged/".toList

/-- Matcher for the blog-link regex (line 208):
`(https:\/\/shop\.healthandlight\.com\/blogs\/news\/tagged\/)([^\s)\]]]+)`
with flags `gi`.  Note the character class in the source is `[^\s)\]]`
followed by a LITERAL `]` under `+` (the regex contains one `]` too many),
so group 2 is one non-`\s`/`)`/`]` character followed by one or more `]`
characters — ordinary slugs do not match. -/
def matchBlogLink (s : Str) : Option (Nat × (Str × Str)) :=
  if ciStarts blogBase s then
    let b := s.take blogBase.length
    let r := s.drop blogBase.length
    match r with
    | c0 :: r1 =>
      if capStop c0 then none
      else
        match r1.takeWhile (fun c => c = ']') with
        | [] => none
        | brs@(_ :: _) => some (blogBase.length + brs.length, (b, c0 :: brs))
    | [] => none
  else none

/-- Matcher for the case-sensitive `/and/g` used on the slug guess. -/
def matchAnd : Str → Option (Nat × Unit)
  | 'a' :: 'n' :: 'd' :: _ => some (2, ())
  | _ => none

/-- The replacement callback for blog links (lines 209-214): reverse-map the
slug (`-`→space, `and`→`&`), canonicalize with fallbacks, then regenerate
the slug or substitute `wellness`. -/
def blogRepl (allowed : List Str) (pref : Option Str) (p : Str × Str) :
    Except Unit Str := do
  let (b, slug) := p
  let guess0 := slug.map (fun c => if c = '-' then ' ' else c)
  let guess := scanGo matchAnd (fun _ => ['&']) guess0.length guess0
  let t1 ← normalizeTag allowed (some guess)
  let t2 ← match t1 with
    | some t => pure (some t)
    | none => normalizeTag allowed (some slug)
  let tag? ← match t2 with
    | some t => pure (some t)
    | none => normalizeTag allowed pref
  match tag? with
  | none => pure (b ++ "wellness".toList)
  | some tag => pure (b ++ slugifyTagForBlog tag)

/-- `sanitizeLinks` (lines 184-218): first the collection-link pass, then
the blog-link pass. -/
def sanitizeLinks (allowed : List Str) (reply : Str) (pref : Option Str) :
    Except Unit Str :=
  if reply = [] then .ok reply
  else do
    let r1 ← scanGoE matchCollLink (collLinkRepl allowed pref) reply.length reply
    scanGoE matchBlogLink (blogRepl allowed pref) r1.length r1

/- ====== Section enforcer: ensureSectionsHaveOneLink (lines 223-284) ====== -/

/-- Literal URL part of the services link-removal regex (line 241):
`https:\/\/shop\.healthandlight\.com\/collections\/services\?`. -/
def srvUrlLit : Str :=
  "https://shop.healthandlight.com/collections/services?".toList

/-- Literal URL part of the supplements link-removal regex (line 243). -/
def suppUrlLit : Str :=
  "https://shop.healthandlight.com/collections/nutritional-supplements?".toList

/-- Literal URL part of the articles link-removal regex (line 245). -/
def artUrlLit : Str :=
  "https://shop.healthandlight.com/blogs/news/tagged/".toList

/-- Matcher for the link-removal regexes (lines 240-245):
`\[[^\]]+\]\(\s*URL[^)]+\)` with flags `gi`, where `URL` is one of the three
literals above.  Both obligatory classes are deterministic (they stop at the
first `]` respectively `)`). -/
def matchMdLink (urlLit : Str) : Str → Option (Nat × Unit)
  | [] => none
  | c :: r =>
    if c ≠ '[' then none
    else
      match r.takeWhile (fun c => c ≠ ']') with
      | [] => none
      | lbl@(_ :: _) =>
        match r.dropWhile (fun c => c ≠ ']') with
        | ']' :: '(' :: r2 =>
          if ciStarts urlLit (r2.dropWhile jsWs) then
            match (r2.dropWhile jsWs).drop urlLit.length with
            | r4 =>
              match r4.takeWhile (fun c => c ≠ ')') with
              | [] => none
              | inner@(_ :: _) =>
                match r4.dropWhile (fun c => c ≠ ')') with
                | ')' :: _ =>
                  some (1 + lbl.length + 2 + (r2.takeWhile jsWs).length +
                        urlLit.length + inner.length, ())
                | _ => none
          else none
        | _ => none

/-- Remove every markdown link targeting `urlLit` (the `remover`
functions, lines 240-245). -/
def rmLinks (urlLit : Str) (s : Str) : Str :=
  scanGo (matchMdLink urlLit) (fun _ => []) s.length s

/-- Match the section words (e.g. `Nutritional\s+Supplements`)
case-insensitively, words separated by at least one whitespace character.
Returns the number of characters consumed. -/
def matchWords : List Str → Str → Option Nat
  | [], _ => some 0
  | [w], s => if ciStarts w s then some w.length else none
  | w :: w2 :: ws, s =>
    if ciStarts w s then
      let r := s.drop w.length
      match r.takeWhile jsWs with
      | [] => none
      | gap@(_ :: _) =>
        (matchWords (w2 :: ws) (r.dropWhile jsWs)).map
          (fun n => w.length + gap.length + n)
    else none

/-- The leading `(\*\*)?` of a header regex: consumed length and rest. -/
def starSplit (s : Str) : Nat × Str :=
  if s.take 2 = ['*', '*'] then (2, s.drop 2) else (0, s)

/-- The optional backreference `\2?` (present only when group 2 took the
leading `**`). -/
def afterStar2 (took2 : Bool) (s3 : Str) : Nat × Str :=
  if took2 && decide (s3.take 2 = ['*', '*']) then (2, s3.drop 2) else (0, s3)

/-- The optional `:?`. -/
def hdrColon (s5 : Str) : Nat × Str :=
  if s5.take 1 = [':'] then (1, s5.drop 1) else (0, s5)

/-- `[^\n]*\n?`: the rest of the line and its newline, when present. -/
def hdrLineEnd (s6 : Str) : Nat :=
  (s6.takeWhile (fun c => c ≠ '\n')).length +
  (if (s6.dropWhile (fun c => c ≠ '\n')).take 1 = ['\n'] then 1 else 0)

/-- The characters a header regex consumes after its words:
`\s*\2?\s*:?[^\n]*\n?`. -/
def hdrTail (took2 : Bool) (s2 : Str) : Nat :=
  (s2.takeWhile jsWs).length +
  (afterStar2 took2 (s2.dropWhile jsWs)).1 +
  ((afterStar2 took2 (s2.dropWhile jsWs)).2.takeWhile jsWs).length +
  (hdrColon ((afterStar2 took2 (s2.dropWhile jsWs)).2.dropWhile jsWs)).1 +
  hdrLineEnd (hdrColon ((afterStar2 took2 (s2.dropWhile jsWs)).2.dropWhile jsWs)).2

/-- Match the part of a section-header regex (lines 260-262) after the
`(^|\n)` prefix: `(\*\*)?\s*WORDS\s*\2?\s*:?[^\n]*\n?` (flag `i`).  Returns
the number of characters consumed.  Greedy choices need no backtracking
here: if `**` is present but the words do not follow, the alternative
without `**` fails as well (the next pattern character cannot be `*`), and
once the words have matched, everything that follows is optional. -/
def headerRest (words : List Str) (s : Str) : Option Nat :=
  match matchWords words ((starSplit s).2.dropWhile jsWs) with
  | none => none
  | some nw =>
    some ((starSplit s).1 + ((starSplit s).2.takeWhile jsWs).length + nw +
          hdrTail ((starSplit s).1 == 2)
            (((starSplit s).2.dropWhile jsWs).drop nw))

/-- Scan for the first position after the start where a `\n` begins a
header match; returns `(index of the newline, match length incl. it)`. -/
def headerFindGo (words : List Str) : Str → Option (Nat × Nat)
  | [] => none
  | c :: r =>
    if c = '\n' then
      match headerRest words r with
      | some n => some (0, n + 1)
      | none => (headerFindGo words r).map (fun p => (p.1 + 1, p.2))
    else (headerFindGo words r).map (fun p => (p.1 + 1, p.2))

/-- First match of a header regex `(^|\n)(\*\*)?\s*WORDS\s*\2?\s*:?[^\n]*\n?`:
at position 0 the `^` alternative is tried first, then every newline
position in order. -/
def headerFind (words : List Str) (s : Str) : Option (Nat × Nat) :=
  match headerRest words s with
  | some n => some (0, n)
  | none => headerFindGo words s

/-- Non-global replace of the first header match, where the replacement is a
function of the matched text (the `reply.replace(sectionRegex, m => ...)`
call, line 249). -/
def replaceHeaderOnce (words : List Str) (f : Str → Str) (s : Str) : Str :=
  match headerFind words s with
  | none => s
  | some (i, n) => s.take i ++ f ((s.drop i).take n) ++ s.drop (i + n)

/-- `injectOne` (lines 247-253): strip all links of the section's type, then
put one line (when the builder produced one) right after the section
header. -/
def injectOne (words : List Str) (urlLit : Str) (line? : Option Str)
    (s : Str) : Str :=
  replaceHeaderOnce words
    (fun m => m ++ '\n' :: (match line? with
      | some l => l ++ ['\n']
      | none => []))
    (rmLinks urlLit s)

/-- Matcher for `/\n{3,}/g` (line 282). -/
def matchNl3 : Str → Option (Nat × Unit)
  | c1 :: c2 :: c3 :: r =>
    if c1 = '\n' && c2 = '\n' && c3 = '\n' then
      some (2 + (r.takeWhile (fun c => c = '\n')).length, ())
    else none
  | _ => none

/-- The tidy pass `reply.replace(/\n{3,}/g, '\n\n')` (line 282). -/
def tidyNewlines (s : Str) : Str :=
  scanGo matchNl3 (fun _ => '\n' :: ['\n']) s.length s

/-- The services-section tag (lines 231-234): the preferred tag unless it is
blocked or absent, in which case the fallback. -/
def serviceTagOf (allowed : List Str) (baseTag : Option Str) : Option Str :=
  match baseTag with
  | some t => if SERVICE_TAG_BLOCKLIST.contains t then
      serviceFallbackFor allowed else some t
  | none => serviceFallbackFor allowed

/-- The services bullet line (lines 255, 266). -/
def sLineOf (allowed : List Str) (baseTag : Option Str) : Option Str :=
  (serviceTagOf allowed baseTag).map (fun t =>
    "- [Supportive Services (".toList ++ t ++ ")](".toList ++
      makeServicesLink t ++ [')'])

/-- The supplements bullet line (lines 256, 272). -/
def pLineOf (baseTag : Option Str) : Option Str :=
  baseTag.map (fun t =>
    "- [Explore Supplements (".toList ++ t ++ ")](".toList ++
      makeSuppsLink t ++ [')'])

/-- The articles bullet line (lines 257, 278). -/
def aLineOf (baseTag : Option Str) : Option Str :=
  baseTag.map (fun t =>
    "- [Read Articles (".toList ++ t ++ ")](".toList ++
      makeArticlesLink t ++ [')'])

/-- `ensureSectionsHaveOneLink` (lines 223-284). -/
def ensureSectionsHaveOneLink (allowed : List Str) (reply : Str)
    (pref : Option Str) : Except Unit Str :=
  if reply = [] then .ok reply
  else do
    let baseTag ← normalizeTag allowed pref
    .ok (tidyNewlines
      (injectOne ["Articles".toList] artUrlLit (aLineOf baseTag)
        (injectOne ["Nutritional".toList, "Supplements".toList] suppUrlLit
          (pLineOf baseTag)
          (injectOne ["Services".toList] srvUrlLit (sLineOf allowed baseTag)
            reply))))

/- ====== Fuzzy tag extractor: extractTagsFrom (lines 103-115) ====== -/

/-- The zero-width lookahead `(?=[^\w]|$)` after the tag pattern. -/
def boundaryAfter : Str → Bool
  | [] => true
  | c :: _ => !jsWordChar c

/-- Scan for a match of `[^\w]PAT(?=[^\w]|$)` anywhere (the non-`^` arm of
the leading boundary). -/
def tagTestGo (raw : Str) : Str → Bool
  | [] => false
  | c :: r =>
    (!jsWordChar c && ciStarts raw r && boundaryAfter (r.drop raw.length)) ||
    tagTestGo raw r

/-- `re.test(text)` for the per-tag pattern of `extractTagsFrom`
(lines 108-112): `(?:^|[^\w])PAT(?=[^\w]|$)` with flag `i`.

In the source, `PAT` is `escapeRegex(raw)` with two subsequent replacements
of `\&` by `(?:&|and)` and of `\-` by `[- ]?`.  `escapeRegex` (line 95)
escapes only `. * + ? ^ $ { } ( ) | [ ] \`, never `&` or `-`; hence for any
tag that does not itself contain a backslash the pattern contains no `\&`
or `\-` two-character sequence, both replacements are no-ops, and the
pattern matches exactly the literal tag text case-insensitively (escaped
specials still match themselves literally).  We embed that literal
matching; the store tags are backslash-free. -/
def jsTagTest (raw text : Str) : Bool :=
  (ciStarts raw text && boundaryAfter (text.drop raw.length)) ||
  tagTestGo raw text

/-- Insertion-order deduplication of a JS `Set` built by pushing. -/
def jsDedupGo (seen : List Str) : List Str → List Str
  | [] => []
  | x :: r =>
    if seen.contains x then jsDedupGo seen r
    else x :: jsDedupGo (x :: seen) r

/-- `[...new Set(l)]`. -/
def jsDedup (l : List Str) : List Str := jsDedupGo [] l

/-- `extractTagsFrom` (lines 103-115). -/
def extractTagsFrom (allowed : List Str) (text : Str) : List Str :=
  if text = [] || allowed = [] then []
  else jsDedup (allowed.filter (fun raw => jsTagTest raw text))

/- ====== Related-tag expander and footer (lines 123-132, 410-427) ====== -/

/-- `expandRelatedTags` (lines 123-132). -/
def expandRelatedTags (allowed : List Str) (tags : List Str) (limit : Nat) :
    List Str :=
  let out := tags.foldr
    (fun t acc =>
      (graphRelated t).filter
        (fun r => allowed.contains r && !TAG_DENYLIST_FOOTER.contains r) ++ acc)
    []
  (jsDedup out).take limit

/-- The concatenation of the user's messages (line 410,
`join('\n\n')`). -/
def userTextAll (inbound : List Str) : Str :=
  List.intercalate "\n\n".toList inbound

/-- The footer tag selection (lines 411-419): preferred tag plus related
tags when a preferred tag exists (JS truthiness: an empty string counts as
absent), else tags extracted from the user history (first four), else tags
extracted from the processed reply; then dedup, filter by allow-list and
footer denylist, and cap at eight. -/
def footerBase (allowed : List Str) (pref : Option Str)
    (inbound : List Str) : List Str :=
  match pref with
  | some (c :: cs) => (c :: cs) :: expandRelatedTags allowed [c :: cs] 6
  | _ => (extractTagsFrom allowed (userTextAll inbound)).take 4

/-- The dedup/filter/cap stage of the footer selection (lines 415-419). -/
def footerTags (allowed : List Str) (pref : Option Str)
    (inbound : List Str) (processed : Str) : List Str :=
  ((jsDedup (if footerBase allowed pref inbound = [] then
      extractTagsFrom allowed processed else footerBase allowed pref inbound)).filter
    (fun t => allowed.contains t && !TAG_DENYLIST_FOOTER.contains t)).take 8

/-- Lexicographic comparison of code points. -/
def lexLe : Str → Str → Bool
  | [], _ => true
  | _ :: _, [] => false
  | a :: as, b :: bs => a.toNat < b.toNat || (a = b && lexLe as bs)

/-- Model of `a.localeCompare(b) ≤ 0` (line 423): the default collation
compares letters case-insensitively; ties are left to stability.  All
properties proved below other than the sort order itself are independent of
this modelling choice. -/
def lcLe (a b : Str) : Bool := lexLe (toLowerStr a) (toLowerStr b)

/-- Stable insertion into a sorted list. -/
def insertLe (le : Str → Str → Bool) (x : Str) : List Str → List Str
  | [] => [x]
  | y :: r => if le x y then x :: y :: r else y :: insertLe le x r

/-- Stable sort modelling `Array.prototype.sort` with a comparator. -/
def insSort (le : Str → Str → Bool) : List Str → List Str
  | [] => []
  | x :: r => insertLe le x (insSort le r)

/-- Rendering of the footer bullet list (lines 422-425). -/
def footerRender (l : List Str) : Str :=
  List.intercalate "\n".toList
    (l.map (fun t => "- [".toList ++ t ++ "](".toList ++ makeAllLink t ++ [')']))

/-- The sorted footer list that is rendered (lines 422-425). -/
def footerSorted (allowed : List Str) (pref : Option Str)
    (inbound : List Str) (processed : Str) : List Str :=
  insSort lcLe (footerTags allowed pref inbound processed)

/-- Appending the footer (lines 421-427): only when the tag list is
non-empty. -/
def appendFooter (allowed : List Str) (pref : Option Str)
    (inbound : List Str) (txt : Str) : Str :=
  match footerTags allowed pref inbound txt with
  | [] => txt
  | l@(_ :: _) =>
    txt ++ "\n\n**Shop by category:**\n".toList ++ footerRender (insSort lcLe l)

/-- The post-processing pipeline of the `/chat` handler (lines 400-427):
placeholder conversion, link sanitizing, section enforcement, footer.
(The Watsu pre-step, lines 392-398, runs before this pipeline and only
produces another reply text; the claims below quantify over the reply.) -/
def processReply (allowed : List Str) (reply : Str) (pref : Option Str)
    (inbound : List Str) : Except Unit Str := do
  let r1 ← convertPlaceholders allowed reply pref
  let r2 ← sanitizeLinks allowed r1 pref
  let r3 ← ensureSectionsHaveOneLink allowed r2 pref
  pure (appendFooter allowed pref inbound r3)

/- ====== Helper lemmas for C9 ====== -/

theorem mem_collapseRuns {p : Char → Bool} {rep : Char} {l : Str} {b : Bool}
    {c : Char} (h : c ∈ collapseRuns p rep l b) :
    c = rep ∨ (c ∈ l ∧ p c = false) := by
  induction l generalizing b with
  | nil => simp [collapseRuns] at h
  | cons x r ih =>
    simp only [collapseRuns] at h
    by_cases hx : p x = true
    · simp only [hx, if_pos rfl] at h
      rcases b with _ | _
      · simp at h
        rcases h with h | h
        · exact .inl h
        · rcases ih h with h' | ⟨hm, hp⟩
          · exact .inl h'
          · exact .inr ⟨List.mem_cons_of_mem _ hm, hp⟩
      · simp at h
        rcases ih h with h' | ⟨hm, hp⟩
        · exact .inl h'
        · exact .inr ⟨List.mem_cons_of_mem _ hm, hp⟩
    · simp only [Bool.not_eq_true] at hx
      simp [hx] at h
      rcases h with rfl | h
      · exact .inr ⟨List.mem_cons_self _ _, hx⟩
      · rcases ih h with h' | ⟨hm, hp⟩
        · exact .inl h'
        · exact .inr ⟨List.mem_cons_of_mem _ hm, hp⟩

theorem collapseRuns_id {p : Char → Bool} {rep : Char} {l : Str}
    (h : ∀ c ∈ l, p c = false) : ∀ b, collapseRuns p rep l b = l := by
  induction l with
  | nil => intro b; rfl
  | cons x r ih =>
    intro b
    have hx := h x (List.mem_cons_self _ _)
    simp only [collapseRuns, hx]
    simp [ih (fun c hc => h c (List.mem_cons_of_mem _ hc))]

theorem collapseRuns_cons_pos {p : Char → Bool} {rep x : Char} {r : Str}
    {b : Bool} (hx : p x = true) :
    collapseRuns p rep (x :: r) b =
      (if b then [] else [rep]) ++ collapseRuns p rep r true := by
  simp [collapseRuns, hx]

theorem collapseRuns_cons_neg {p : Char → Bool} {rep x : Char} {r : Str}
    {b : Bool} (hx : p x = false) :
    collapseRuns p rep (x :: r) b = x :: collapseRuns p rep r false := by
  simp [collapseRuns, hx]

/-- Chain relation: no two adjacent characters both satisfy `p`. -/
def noPPair (p : Char → Bool) (a b : Char) : Prop := p a = true → p b = false

theorem collapseRuns_chain {p : Char → Bool} {rep : Char} :
    ∀ (l : Str) (b : Bool),
      List.Chain' (noPPair p) (collapseRuns p rep l b) ∧
      (b = true → ∀ c, (collapseRuns p rep l b).head? = some c → p c = false) := by
  intro l
  induction l with
  | nil =>
    intro b
    refine ⟨List.chain'_nil, ?_⟩
    intro _ c hc
    simp [collapseRuns] at hc
  | cons x r ih =>
    intro b
    by_cases hx : p x = true
    · cases b with
      | false =>
        have ihr := ih true
        rw [collapseRuns_cons_pos hx]
        refine ⟨?_, by intro h; cases h⟩
        simp only [if_neg (by simp : ¬ (false = true)), List.singleton_append]
        rw [List.chain'_cons']
        refine ⟨?_, ihr.1⟩
        intro y hy _
        exact ihr.2 rfl y hy
      | true =>
        have ihr := ih true
        rw [collapseRuns_cons_pos hx]
        simp only [if_pos rfl, List.nil_append]
        exact ⟨ihr.1, fun _ c hc => ihr.2 rfl c hc⟩
    · simp only [Bool.not_eq_true] at hx
      have ihr := ih false
      rw [collapseRuns_cons_neg hx]
      constructor
      · rw [List.chain'_cons']
        refine ⟨?_, ihr.1⟩
        intro y _ hpx
        rw [hx] at hpx
        cases hpx
      · intro _ c hc
        simp only [List.head?_cons, Option.some.injEq] at hc
        rw [← hc]
        exact hx

theorem collapseRuns_true_eq_false {p : Char → Bool} {rep : Char} {l : Str}
    (h : ∀ c, l.head? = some c → p c = false) :
    collapseRuns p rep l true = collapseRuns p rep l false := by
  cases l with
  | nil => rfl
  | cons d r =>
    have hd := h d rfl
    rw [collapseRuns_cons_neg hd, collapseRuns_cons_neg hd]

theorem collapseRuns_id_of_chain {p : Char → Bool} {rep : Char}
    (hrep : ∀ c, p c = true → c = rep) :
    ∀ l, List.Chain' (noPPair p) l → collapseRuns p rep l false = l := by
  intro l
  induction l with
  | nil => intro _; rfl
  | cons x r ih =>
    intro hch
    rw [List.chain'_cons'] at hch
    by_cases hx : p x = true
    · rw [collapseRuns_cons_pos hx]
      simp only [if_neg (by simp : ¬ (false = true)), List.singleton_append]
      rw [collapseRuns_true_eq_false (fun c hc => hch.1 c hc hx), ih hch.2,
          hrep x hx]
    · simp only [Bool.not_eq_true] at hx
      rw [collapseRuns_cons_neg hx, ih hch.2]

theorem dropWhile_id {p : Char → Bool} {l : Str} (h : ∀ c ∈ l, p c = false) :
    l.dropWhile p = l := by
  cases l with
  | nil => rfl
  | cons x r =>
    rw [List.dropWhile_cons, if_neg]
    simp [h x (List.mem_cons_self _ _)]

theorem jsTrim_id {l : Str} (h : ∀ c ∈ l, jsWs c = false) : jsTrim l = l := by
  unfold jsTrim
  rw [dropWhile_id h]
  rw [dropWhile_id (fun c hc => h c (List.mem_reverse.mp hc))]
  exact List.reverse_reverse l

theorem mem_jsTrim {l : Str} {c : Char} (h : c ∈ jsTrim l) : c ∈ l := by
  unfold jsTrim at h
  rw [List.mem_reverse] at h
  have h2 := (List.dropWhile_sublist _).mem h
  rw [List.mem_reverse] at h2
  exact (List.dropWhile_sublist (l := l) _).mem h2

theorem ampToAnd_id {l : Str} (h : ∀ c ∈ l, c ≠ '&') : ampToAnd l = l := by
  induction l with
  | nil => rfl
  | cons x r ih =>
    unfold ampToAnd
    simp only [List.foldr_cons]
    rw [if_neg (h x (List.mem_cons_self _ _))]
    show x :: ampToAnd r = x :: r
    rw [ih (fun c hc => h c (List.mem_cons_of_mem _ hc))]

/-- The character classes a slug can contain. -/
def goodSlugChar (c : Char) : Prop :=
  ('a' ≤ c ∧ c ≤ 'z') ∨ ('0' ≤ c ∧ c ≤ '9') ∨ c = '-'

theorem toLower_id {c : Char} (h : goodSlugChar c) : c.toLower = c := by
  simp only [Char.toLower]
  split
  · rename_i hc
    simp only [ge_iff_le, decide_eq_true_eq, Bool.and_eq_true] at hc
    rcases h with ⟨h1, _⟩ | ⟨_, h2⟩ | rfl
    · have a1 : 97 ≤ c.toNat := h1
      omega
    · have a2 : c.toNat ≤ 57 := h2
      omega
    · simp at hc
  · rfl

theorem jsWs_of_goodSlugChar {c : Char} (h : goodSlugChar c) :
    jsWs c = false := by
  rcases h with ⟨h1, _⟩ | ⟨h1, _⟩ | rfl
  · have a1 : 97 ≤ c.toNat := h1
    simp only [jsWs, Bool.or_eq_false_iff, decide_eq_false_iff_not]
    refine ⟨⟨⟨⟨⟨?_, ?_⟩, ?_⟩, ?_⟩, ?_⟩, ?_⟩ <;>
      (intro hc; subst hc; simp at a1)
  · have a1 : 48 ≤ c.toNat := h1
    simp only [jsWs, Bool.or_eq_false_iff, decide_eq_false_iff_not]
    refine ⟨⟨⟨⟨⟨?_, ?_⟩, ?_⟩, ?_⟩, ?_⟩, ?_⟩ <;>
      (intro hc; subst hc; simp at a1)
  · decide

theorem slugify_unfold (s : Str) :
    slugifyTagForBlog s =
      collapseRuns (fun c => c = '-') '-'
        (collapseRuns jsWs '-'
          (jsTrim ((ampToAnd (toLowerStr s)).filter slugKeep)) false)
        false := rfl

theorem slug_chars {t : Str} : ∀ c ∈ slugifyTagForBlog t, goodSlugChar c := by
  intro c hc
  rw [slugify_unfold] at hc
  rcases mem_collapseRuns hc with rfl | ⟨hm, hne⟩
  · exact .inr (.inr rfl)
  · rcases mem_collapseRuns hm with rfl | ⟨hm2, hws⟩
    · exact .inr (.inr rfl)
    · have hm3 := mem_jsTrim hm2
      have hk := (List.mem_filter.mp hm3).2
      simp only [slugKeep, Bool.or_eq_true, Bool.and_eq_true, decide_eq_true_eq] at hk
      rcases hk with ((⟨h1, h2⟩ | ⟨h1, h2⟩) | hw) | hd
      · exact .inl ⟨h1, h2⟩
      · exact .inr (.inl ⟨h1, h2⟩)
      · rw [hw] at hws; cases hws
      · rw [decide_eq_false_iff_not] at hne
        exact absurd hd hne

/-- C9 helper: the slug alphabet excludes ampersands. -/
theorem goodSlugChar_ne_amp {c : Char} (h : goodSlugChar c) : c ≠ '&' := by
  rintro rfl
  rcases h with ⟨h1, _⟩ | ⟨h1, _⟩ | h
  · exact absurd (show (97:Nat) ≤ 38 from h1) (by omega)
  · exact absurd (show (48:Nat) ≤ 38 from h1) (by omega)
  · cases h

theorem map_toLower_id {l : Str} (h : ∀ c ∈ l, goodSlugChar c) :
    toLowerStr l = l := by
  unfold toLowerStr
  induction l with
  | nil => rfl
  | cons x r ih =>
    simp only [List.map_cons]
    rw [toLower_id (h x (List.mem_cons_self _ _)),
        ih (fun c hc => h c (List.mem_cons_of_mem _ hc))]

/-- C9: `slugifyTagForBlog` is idempotent. -/
theorem slugifyTagForBlog_idempotent (t : Str) :
    slugifyTagForBlog (slugifyTagForBlog t) = slugifyTagForBlog t := by
  have hg := slug_chars (t := t)
  have hgood : ∀ c ∈ slugifyTagForBlog t, goodSlugChar c := hg
  have hchain : List.Chain' (noPPair (fun c => c = '-')) (slugifyTagForBlog t) := by
    rw [slugify_unfold]
    exact (collapseRuns_chain _ _).1
  rw [slugify_unfold (slugifyTagForBlog t)]
  rw [map_toLower_id hg]
  rw [ampToAnd_id (fun c hc => goodSlugChar_ne_amp (hg c hc))]
  rw [List.filter_eq_self.mpr (fun c hc => by
    have := hg c hc
    simp only [slugKeep, Bool.or_eq_true, Bool.and_eq_true, decide_eq_true_eq]
    rcases this with ⟨h1, h2⟩ | ⟨h1, h2⟩ | rfl
    · exact .inl (.inl (.inl ⟨h1, h2⟩))
    · exact .inl (.inl (.inr ⟨h1, h2⟩))
    · exact .inr rfl)]
  rw [jsTrim_id (fun c hc => jsWs_of_goodSlugChar (hg c hc))]
  rw [collapseRuns_id (fun c hc => jsWs_of_goodSlugChar (hg c hc)) false]
  exact collapseRuns_id_of_chain (fun c hc => by simpa using hc) _ hchain

/- ====== Decidable equality for pipeline results ====== -/

instance {α : Type} [DecidableEq α] : DecidableEq (Except Unit α) := fun a b =>
  match a, b with
  | .ok x, .ok y =>
    if h : x = y then isTrue (by rw [h]) else isFalse (by simp [h])
  | .error _, .error _ => isTrue (by rfl)
  | .ok _, .error _ => isFalse (by simp)
  | .error _, .ok _ => isFalse (by simp)

/- ====== C5: the fuzzy-extraction flexibility is dead code ====== -/

/-- C5 (code bug): the spec requires `extractTagsFrom "I have
Adapt-and-Thrive issues"` to yield the tag `Adapt & Thrive` when that tag
is allow-listed (`&` tolerant of `and`, `-` tolerant of space).  The
source's `escapeRegex` (line 95) escapes neither `&` nor `-`, so the
rewrites of `\&` and `\-` (lines 109-110) never fire and the pattern only
matches the literal tag text: the extraction comes back empty.  (The
boundary half of the claim does hold, see
`extractTagsFrom_sleepyhead` below.) -/
theorem extractTagsFrom_adapt_and_thrive_empty :
    extractTagsFrom ["Adapt & Thrive".toList]
      ("I have Adapt-and-Thrive issues".toList) = [] := by decide

/- ====== C7: the blog-link repair regex cannot match a slug ====== -/

/-- C7 (code bug): the spec requires raw article links to have their slug
reverse-mapped and canonicalized, with the generic fallback slug
substituted on failure.  The blog-link regex (line 208) contains a stray
`]`: its slug group is `[^\s)\]]]+`, i.e. one character followed by one or
more literal `]` characters, so an ordinary slug never matches and the raw
article link passes through `sanitizeLinks` untouched (here the claimed
behaviour would rewrite the slug to `wellness`). -/
theorem sanitizeLinks_blog_slug_untouched :
    sanitizeLinks ["Sleep".toList]
      ("see https://shop.healthandlight.com/blogs/news/tagged/not-a-real-slug now".toList)
      none =
    .ok ("see https://shop.healthandlight.com/blogs/news/tagged/not-a-real-slug now".toList) := by
  decide

/- ====== C1: soundness of output links (violated via the blog regex) ====== -/

/-- The allow-list of the C1 failing input. -/
def c1Allowed : List Str := ["Gut Health".toList]

/-- The C1 failing reply: a blog link whose buggy slug match ends in the
middle of an `https` that continues into a blocked services link. -/
def c1Reply : Str :=
  ("https://shop.healthandlight.com/blogs/news/tagged/x]ttps://shop.healthandlight.com/collections/services?filter.p.tag=Cancer").toList

/-- The services link, tagged with the blocklisted non-allow-listed tag
`Cancer`, that survives into the final output. -/
def c1BadLink : Str :=
  ("https://shop.healthandlight.com/collections/services?filter.p.tag=Cancer").toList

set_option maxRecDepth 100000 in
/-- C1 (code bug): the claimed invariant — every collection link in the
final post-processed output carries an allow-listed tag and a services link
never carries a blocklisted tag — fails on the code.  The stray `]` in the
blog-link regex (line 208, see C7) makes the slug rewrite of `sanitizeLinks`
consume `x]` out of `tagged/x]ttps://…` and regenerate the slug
`gut-health`, whose trailing `h` fuses with the following `ttps://…` into a
fresh `https://shop.healthandlight.com/collections/services?filter.p.tag=Cancer`
link that no later stage touches: the final output contains a services link
carrying the tag `Cancer`, which is blocklisted and not in the allow-list. -/
theorem processReply_smuggles_blocked_services_link :
    (match processReply c1Allowed c1Reply (some ("Gut Health".toList)) [] with
      | .ok out => containsSub c1BadLink out
      | .error _ => false) = true ∧
    c1Allowed.contains ("Cancer".toList) = false ∧
    SERVICE_TAG_BLOCKLIST.contains ("Cancer".toList) = true := by
  exact ⟨by decide, by decide, by decide⟩

theorem scanGoE_nil {α} (m : Str → Option (Nat × α)) (f : α → Except Unit Str)
    (fuel : Nat) : scanGoE m f fuel [] = .ok [] := by
  cases fuel <;> rfl

/-- Evaluation of `scanGoE` on a text that is one single full match. -/
theorem scanGoE_full {α} (m : Str → Option (Nat × α)) (f : α → Except Unit Str)
    {c : Char} {rest : Str} {k : Nat} {a : α}
    (hm : m (c :: rest) = some (k, a)) (hdrop : rest.drop k = ([] : Str))
    {rep : Str} (hf : f a = .ok rep) (fuel : Nat) :
    scanGoE m f (fuel + 1) (c :: rest) = .ok rep := by
  unfold scanGoE
  rw [hm]
  show (do
    let r ← f a
    let tail ← scanGoE m f fuel (rest.drop k)
    pure (r ++ tail) : Except Unit Str) = .ok rep
  rw [hf, hdrop, scanGoE_nil]
  show Except.ok (rep ++ []) = Except.ok rep
  rw [List.append_nil]

/- ====== C4: unknown placeholder tags are deleted ====== -/

/-- C4: resolving `[SERVICES_TAG: Not-A-Real-Tag]` with no preferred tag,
when the name is not in the allow-list (its case-insensitive lookup fails),
deletes the placeholder: the output is the empty string, with neither a
link nor any placeholder text. -/
theorem convertPlaceholders_unknown_tag_deleted (allowed : List Str)
    (h : lowerLookup allowed ("not-a-real-tag".toList) = none) :
    convertPlaceholders allowed ("[SERVICES_TAG: Not-A-Real-Tag]".toList) none =
      .ok [] := by
  have hn : normalizeTag allowed (some ("Not-A-Real-Tag".toList)) = .ok none := by
    simp only [normalizeTag]
    rw [if_neg (by decide),
        show decodeURIComponent? ("Not-A-Real-Tag".toList) =
          some ("Not-A-Real-Tag".toList) from by decide]
    show Except.ok (lowerLookup allowed (toLowerStr (jsTrim ("Not-A-Real-Tag".toList)))) =
      Except.ok none
    rw [show toLowerStr (jsTrim ("Not-A-Real-Tag".toList)) =
          "not-a-real-tag".toList from by decide, h]
  have hrepl : placeholderRepl allowed none
      (PKind.services, "Not-A-Real-Tag".toList) = .ok [] := by
    unfold placeholderRepl
    rw [hn]
    rfl
  have hm : matchPlaceholder ("[SERVICES_TAG: Not-A-Real-Tag]".toList) =
      some (29, (PKind.services, "Not-A-Real-Tag".toList)) := by decide
  show scanGoE matchPlaceholder (placeholderRepl allowed none) 30
      ("[SERVICES_TAG: Not-A-Real-Tag]".toList) = .ok []
  exact scanGoE_full _ _ hm (by decide) hrepl 29

/- C3 helpers -/

theorem ciStarts_self_append (p x : Str) : ciStarts p (p ++ x) = true := by
  induction p with
  | nil => rfl
  | cons c ps ih => simpa [ciStarts, ciEq] using ih

theorem takeWhile_append_stop {p : Char → Bool} {l : Str} {d : Char} {x : Str}
    (hl : ∀ c ∈ l, p c = true) (hd : p d = false) :
    (l ++ d :: x).takeWhile p = l := by
  induction l with
  | nil => simp [List.takeWhile_cons, hd]
  | cons c r ih =>
    rw [List.cons_append, List.takeWhile_cons,
        if_pos (hl c (List.mem_cons_self _ _)),
        ih (fun a ha => hl a (List.mem_cons_of_mem _ ha))]

theorem dropWhile_append_stop {p : Char → Bool} {l : Str} {d : Char} {x : Str}
    (hl : ∀ c ∈ l, p c = true) (hd : p d = false) :
    (l ++ d :: x).dropWhile p = d :: x := by
  induction l with
  | nil => simp [List.dropWhile_cons, hd]
  | cons c r ih =>
    rw [List.cons_append, List.dropWhile_cons,
        if_pos (hl c (List.mem_cons_self _ _))]
    exact ih (fun a ha => hl a (List.mem_cons_of_mem _ ha))

theorem lowerLookup_mem {allowed : List Str} {key t : Str}
    (h : lowerLookup allowed key = some t) : t ∈ allowed := by
  unfold lowerLookup at h
  have hm := List.mem_of_mem_getLast? h
  exact (List.mem_filter.mp hm).1

theorem normalizeTag_mem {allowed : List Str} {s t : Str}
    (h : normalizeTag allowed (some s) = .ok (some t)) : t ∈ allowed := by
  simp only [normalizeTag] at h
  split at h
  · cases h
  · split at h
    · cases h
    · rename_i d hd
      simp only [Except.ok.injEq] at h
      exact lowerLookup_mem h

theorem fallback_not_blocklisted {allowed : List Str} {fb : Str}
    (h : serviceFallbackFor allowed = some fb) :
    allowed.contains fb = true ∧ SERVICE_TAG_BLOCKLIST.contains fb = false := by
  unfold serviceFallbackFor at h
  have hmem := List.mem_of_find?_eq_some h
  have hp := List.find?_some h
  refine ⟨hp, ?_⟩
  fin_cases hmem <;> decide

/- ====== C3: blocklisted services tags fall back ====== -/

/-- C3: for a services placeholder whose (bracket-free, non-padded) name
canonicalizes to a tag `t` that is blocklisted for services,
`convertPlaceholders` emits a services link whose tag is
`serviceFallbackFor allowed` — by definition the first element of
`['Stress', 'Sleep', 'Anxiety', 'Bodywork', 'Adapt & Thrive']` present in
the allow-list — and deletes the placeholder entirely when no fallback
element is allow-listed; an emitted fallback tag is allow-listed and never
the blocklisted tag. -/
theorem convertPlaceholders_blocklisted_services (allowed : List Str)
    (pref : Option Str) (h0 : Char) (tl : Str) (t : Str)
    (hws : jsWs h0 = false) (hbr : ']' ∉ h0 :: tl)
    (hn : normalizeTag allowed (some (h0 :: tl)) = .ok (some t))
    (hb : SERVICE_TAG_BLOCKLIST.contains t = true) :
    convertPlaceholders allowed
        ("[SERVICES_TAG: ".toList ++ (h0 :: tl) ++ [']']) pref =
      .ok (match serviceFallbackFor allowed with
        | some fb => "[Supportive Services (".toList ++ fb ++ ")](".toList ++
            makeServicesLink fb ++ [')']
        | none => []) ∧
    (∀ fb, serviceFallbackFor allowed = some fb → fb ∈ allowed ∧ fb ≠ t) ∧
    t ∈ allowed := by
  have hall : ∀ c ∈ h0 :: tl, (fun c => decide (c ≠ ']')) c = true := by
    intro c hc
    simp only [decide_eq_true_eq]
    intro hcc
    exact hbr (hcc ▸ hc)
  refine ⟨?_, ?_, normalizeTag_mem hn⟩
  · have h2 : (' ' :: ((h0 :: tl) ++ [']'])).dropWhile jsWs =
        (h0 :: tl) ++ [']'] := by
      rw [List.dropWhile_cons, if_pos (by decide)]
      rw [show (h0 :: tl) ++ [']'] = h0 :: (tl ++ [']']) from rfl,
          List.dropWhile_cons, if_neg (by simp [hws])]
    have h1 : (' ' :: ((h0 :: tl) ++ [']'])).takeWhile jsWs = [' '] := by
      rw [List.takeWhile_cons, if_pos (by decide)]
      rw [show (h0 :: tl) ++ [']'] = h0 :: (tl ++ [']']) from rfl,
          List.takeWhile_cons, if_neg (by simp [hws])]
    have hcap : placeCapture (' ' :: ((h0 :: tl) ++ [']'])) =
        some ((h0 :: tl).length + 2, h0 :: tl) := by
      unfold placeCapture
      rw [h1, h2]
      rw [show ((h0 :: tl) ++ [']'] : Str) = (h0 :: tl) ++ ']' :: [] from rfl]
      rw [takeWhile_append_stop hall (by decide),
          dropWhile_append_stop hall (by decide)]
      simp only [List.length_cons, List.length_nil, Option.some.injEq,
        Prod.mk.injEq, and_true]
      omega
    have hm : matchPlaceholder ('[' :: ("SERVICES_TAG:".toList ++
        (' ' :: ((h0 :: tl) ++ [']'])))) =
        some (13 + ((h0 :: tl).length + 2), (PKind.services, h0 :: tl)) := by
      simp only [matchPlaceholder]
      rw [if_neg (by simp), if_pos (ciStarts_self_append "SERVICES_TAG:".toList _)]
      rw [show ("SERVICES_TAG:".toList ++ (' ' :: ((h0 :: tl) ++ [']']))).drop 13 =
        ' ' :: ((h0 :: tl) ++ [']']) from by
          simp]
      rw [hcap]
    have hrepl : placeholderRepl allowed pref (PKind.services, h0 :: tl) =
        .ok (match serviceFallbackFor allowed with
          | some fb => "[Supportive Services (".toList ++ fb ++ ")](".toList ++
              makeServicesLink fb ++ [')']
          | none => []) := by
      unfold placeholderRepl
      rw [hn]
      show (match (if SERVICE_TAG_BLOCKLIST.contains t then
          serviceFallbackFor allowed else some t) with
        | none => pure []
        | some fb => pure ("[Supportive Services (".toList ++ fb ++ ")](".toList ++
            makeServicesLink fb ++ [')']) : Except Unit Str) = _
      rw [if_pos (by simpa using hb)]
      cases hf : serviceFallbackFor allowed with
      | none => rfl
      | some fb => rfl
    show scanGoE matchPlaceholder (placeholderRepl allowed pref)
        ("[SERVICES_TAG: ".toList ++ (h0 :: tl) ++ [']']).length
        ("[SERVICES_TAG: ".toList ++ (h0 :: tl) ++ [']']) = _
    have hsplit : ("[SERVICES_TAG: ".toList ++ (h0 :: tl) ++ [']'] : Str) =
        '[' :: ("SERVICES_TAG:".toList ++ (' ' :: ((h0 :: tl) ++ [']']))) := by
      simp
    have hlen : ("[SERVICES_TAG: ".toList ++ (h0 :: tl) ++ [']'] : Str).length =
        (13 + ((h0 :: tl).length + 2)) + 1 := by
      simp [List.length_append]
      omega
    rw [hlen, hsplit]
    refine scanGoE_full _ _ hm ?_ hrepl _
    rw [show 13 + ((h0 :: tl).length + 2) =
          ("SERVICES_TAG:".toList ++ (' ' :: ((h0 :: tl) ++ [']']))).length from by
        simp [List.length_append]
        omega]
    exact List.drop_length _
  · intro fb hfb
    have hf := fallback_not_blocklisted hfb
    refine ⟨by simpa using hf.1, ?_⟩
    rintro rfl
    rw [hf.2] at hb
    cases hb

/-- Witness for C4 at a concrete allow-list. -/
theorem convertPlaceholders_unknown_tag_deleted_witness :
    lowerLookup ["Sleep".toList] ("not-a-real-tag".toList) = none ∧
    convertPlaceholders ["Sleep".toList]
      ("[SERVICES_TAG: Not-A-Real-Tag]".toList) none = .ok [] :=
  ⟨by decide, convertPlaceholders_unknown_tag_deleted ["Sleep".toList] (by decide)⟩

/-- Witness for C3 at a concrete allow-list containing the blocklisted tag
`Cancer` and the fallback `Stress`. -/
theorem convertPlaceholders_blocklisted_services_witness :
    (jsWs 'C' = false ∧ ']' ∉ 'C' :: "ancer".toList ∧
      normalizeTag ["Stress".toList, "Cancer".toList]
        (some ('C' :: "ancer".toList)) = .ok (some ("Cancer".toList)) ∧
      SERVICE_TAG_BLOCKLIST.contains ("Cancer".toList) = true) ∧
    (convertPlaceholders ["Stress".toList, "Cancer".toList]
        ("[SERVICES_TAG: ".toList ++ ('C' :: "ancer".toList) ++ [']']) none =
      .ok (match serviceFallbackFor ["Stress".toList, "Cancer".toList] with
        | some fb => "[Supportive Services (".toList ++ fb ++ ")](".toList ++
            makeServicesLink fb ++ [')']
        | none => []) ∧
      (∀ fb, serviceFallbackFor ["Stress".toList, "Cancer".toList] = some fb →
        fb ∈ ["Stress".toList, "Cancer".toList] ∧ fb ≠ "Cancer".toList) ∧
      ("Cancer".toList) ∈ ["Stress".toList, "Cancer".toList]) :=
  ⟨⟨by decide, by decide, by decide, by decide⟩,
    convertPlaceholders_blocklisted_services _ none 'C' _ _
      (by decide) (by decide) (by decide) (by decide)⟩

/- jsDedup membership lemmas -/

theorem mem_jsDedupGo {seen l : List Str} {x : Str}
    (h : x ∈ jsDedupGo seen l) : x ∈ l := by
  induction l generalizing seen with
  | nil => cases h
  | cons y r ih =>
    unfold jsDedupGo at h
    split at h
    · exact List.mem_cons_of_mem _ (ih h)
    · rcases List.mem_cons.mp h with rfl | h2
      · exact List.mem_cons_self _ _
      · exact List.mem_cons_of_mem _ (ih h2)

theorem jsDedupGo_nodup (seen l : List Str) :
    (jsDedupGo seen l).Nodup ∧ ∀ x ∈ jsDedupGo seen l, x ∉ seen := by
  induction l generalizing seen with
  | nil => exact ⟨List.nodup_nil, by intro x hx; cases hx⟩
  | cons y r ih =>
    unfold jsDedupGo
    split
    · rename_i hy
      exact ih seen
    · rename_i hy
      have ihr := ih (y :: seen)
      constructor
      · rw [List.nodup_cons]
        refine ⟨?_, ihr.1⟩
        intro hmem
        exact ihr.2 y hmem (List.mem_cons_self _ _)
      · intro x hx
        rcases List.mem_cons.mp hx with rfl | h2
        · intro hmem2
          exact hy (List.elem_eq_true_of_mem hmem2)
        · intro hx2
          exact ihr.2 x h2 (List.mem_cons_of_mem _ hx2)

theorem jsDedup_nodup (l : List Str) : (jsDedup l).Nodup :=
  (jsDedupGo_nodup [] l).1

theorem mem_jsDedup {l : List Str} {x : Str} (h : x ∈ jsDedup l) : x ∈ l :=
  mem_jsDedupGo h

theorem contains_true_iff {l : List Str} {a : Str} :
    l.contains a = true ↔ a ∈ l := List.elem_iff

/- insertion sort lemmas -/

theorem insertLe_perm (le : Str → Str → Bool) (x : Str) (l : List Str) :
    List.Perm (insertLe le x l) (x :: l) := by
  induction l with
  | nil => exact List.Perm.refl _
  | cons y r ih =>
    unfold insertLe
    split
    · exact List.Perm.refl _
    · exact ((ih.cons y).trans (List.Perm.swap x y r))

theorem insSort_perm (le : Str → Str → Bool) (l : List Str) :
    List.Perm (insSort le l) l := by
  induction l with
  | nil => exact List.Perm.refl _
  | cons x r ih =>
    exact (insertLe_perm le x (insSort le r)).trans (ih.cons x)

theorem lexLe_total (a b : Str) : lexLe a b = true ∨ lexLe b a = true := by
  induction a generalizing b with
  | nil => exact .inl rfl
  | cons c as ih =>
    cases b with
    | nil => exact .inr rfl
    | cons d bs =>
      by_cases hcd : c.toNat < d.toNat
      · exact .inl (by simp [lexLe, hcd])
      · by_cases hdc : d.toNat < c.toNat
        · exact .inr (by simp [lexLe, hdc])
        · simp only [Char.toNat] at hcd hdc
          have hde : c = d := Char.ext (UInt32.toNat.inj (by omega))
          subst hde
          rcases ih bs with h | h
          · exact .inl (by simp [lexLe, h])
          · exact .inr (by simp [lexLe, h])

theorem lexLe_trans {a b c : Str} (h1 : lexLe a b = true)
    (h2 : lexLe b c = true) : lexLe a c = true := by
  induction a generalizing b c with
  | nil => rfl
  | cons x as ih =>
    cases b with
    | nil => cases h1
    | cons y bs =>
      cases c with
      | nil => cases h2
      | cons z cs =>
        simp only [lexLe, Bool.or_eq_true, Bool.and_eq_true,
          decide_eq_true_eq] at h1 h2 ⊢
        rcases h1 with h1 | ⟨rfl, h1⟩
        · rcases h2 with h2 | ⟨rfl, h2⟩
          · exact .inl (by omega)
          · exact .inl h1
        · rcases h2 with h2 | ⟨rfl, h2⟩
          · exact .inl h2
          · exact .inr ⟨rfl, ih h1 h2⟩

theorem lcLe_total (a b : Str) : lcLe a b = true ∨ lcLe b a = true :=
  lexLe_total _ _

theorem lcLe_trans {a b c : Str} (h1 : lcLe a b = true)
    (h2 : lcLe b c = true) : lcLe a c = true :=
  lexLe_trans h1 h2

theorem insertLe_sorted {x : Str} : ∀ {l : List Str},
    l.Pairwise (fun a b => lcLe a b = true) →
    (insertLe lcLe x l).Pairwise (fun a b => lcLe a b = true) := by
  intro l
  induction l with
  | nil => intro _; simp [insertLe]
  | cons y r ih =>
    intro h
    rw [List.pairwise_cons] at h
    unfold insertLe
    split
    · rename_i hxy
      rw [List.pairwise_cons]
      refine ⟨?_, List.pairwise_cons.mpr h⟩
      intro a ha
      rcases List.mem_cons.mp ha with rfl | ha2
      · exact hxy
      · exact lcLe_trans hxy (h.1 a ha2)
    · rename_i hxy
      rw [List.pairwise_cons]
      constructor
      · intro a ha
        have := (insertLe_perm lcLe x r).mem_iff.mp ha
        rcases List.mem_cons.mp this with rfl | ha2
        · rcases lcLe_total a y with hx | hx
          · exact absurd hx hxy
          · exact hx
        · exact h.1 a ha2
      · exact ih h.2

theorem insSort_sorted (l : List Str) :
    (insSort lcLe l).Pairwise (fun a b => lcLe a b = true) := by
  induction l with
  | nil => simp [insSort]
  | cons x r ih =>
    unfold insSort
    exact insertLe_sorted ih

/-- Supporting fact for C5: the word-boundary half of the claim holds — for
every allow-list containing `Sleep`, extraction from `Sleepyhead` does not
produce `Sleep` (the pattern requires a non-word character or the end of
the string right after the tag). -/
theorem extractTagsFrom_sleepyhead (allowed : List Str)
    (_h : "Sleep".toList ∈ allowed) :
    "Sleep".toList ∉ extractTagsFrom allowed ("Sleepyhead".toList) := by
  intro hmem
  unfold extractTagsFrom at hmem
  split at hmem
  · cases hmem
  · have h2 := (List.mem_filter.mp (mem_jsDedup hmem)).2
    rw [show jsTagTest ("Sleep".toList) ("Sleepyhead".toList) = false from
      by decide] at h2
    cases h2

/- C6 / C10 -/

theorem footerTags_facts (allowed : List Str) (pref : Option Str)
    (inbound : List Str) (processed : Str) :
    (footerTags allowed pref inbound processed).Nodup ∧
    (∀ t ∈ footerTags allowed pref inbound processed,
      t ∈ allowed ∧ t ∉ TAG_DENYLIST_FOOTER) ∧
    (footerTags allowed pref inbound processed).length ≤ 8 := by
  unfold footerTags
  refine ⟨?_, ?_, List.length_take_le _ _⟩
  · exact ((jsDedup_nodup _).filter _).sublist (List.take_sublist _ _)
  · intro t ht
    have hf := List.mem_filter.mp ((List.take_sublist _ _).mem ht)
    have hp := hf.2
    rw [Bool.and_eq_true, Bool.not_eq_true'] at hp
    exact ⟨contains_true_iff.mp hp.1,
      fun hmem => by rw [contains_true_iff.mpr hmem] at hp; cases hp.2⟩

/-- C6: the rendered footer list has no duplicates, no denylisted tag, only
allow-listed tags, is sorted according to the comparator, and every entry is
rendered as a bullet linking to the `all` collection. -/
theorem footerSorted_props (allowed : List Str) (pref : Option Str)
    (inbound : List Str) (processed : Str) :
    (footerSorted allowed pref inbound processed).Nodup ∧
    (∀ t ∈ footerSorted allowed pref inbound processed,
      t ∈ allowed ∧ t ∉ TAG_DENYLIST_FOOTER) ∧
    (footerSorted allowed pref inbound processed).Pairwise
      (fun a b => lcLe a b = true) ∧
    footerRender (footerSorted allowed pref inbound processed) =
      List.intercalate "\n".toList
        ((footerSorted allowed pref inbound processed).map
          (fun t => "- [".toList ++ t ++ "](".toList ++ makeAllLink t ++ [')'])) := by
  have hfacts := footerTags_facts allowed pref inbound processed
  have hperm := insSort_perm lcLe (footerTags allowed pref inbound processed)
  refine ⟨hperm.nodup_iff.mpr hfacts.1, ?_, insSort_sorted _, rfl⟩
  intro t ht
  exact hfacts.2.1 t (hperm.mem_iff.mp ht)

/-- C10: the footer never lists more than eight tags, and on the
preferred-tag path the pre-truncation list already has at most 1 + 6
entries. -/
theorem footer_never_more_than_eight (allowed : List Str) (pref : Option Str)
    (inbound : List Str) (processed : Str) (c : Char) (cs : Str) :
    (footerSorted allowed pref inbound processed).length ≤ 8 ∧
    (footerBase allowed (some (c :: cs)) inbound).length ≤ 7 := by
  constructor
  · unfold footerSorted
    rw [(insSort_perm lcLe _).length_eq]
    exact (footerTags_facts allowed pref inbound processed).2.2
  · show ((c :: cs) :: expandRelatedTags allowed [c :: cs] 6).length ≤ 7
    simp only [List.length_cons]
    have h6 : (expandRelatedTags allowed [c :: cs] 6).length ≤ 6 := by
      unfold expandRelatedTags
      exact List.length_take_le _ _
    omega

/- C8: empty allow-list degrades everything to inert no-ops -/

theorem lowerLookup_nil (key : Str) : lowerLookup [] key = none := rfl

theorem normalizeTag_nil (s : Option Str) :
    normalizeTag [] s = .ok none ∨ normalizeTag [] s = .error () := by
  cases s with
  | none => exact .inl rfl
  | some l =>
    simp only [normalizeTag]
    split
    · exact .inl rfl
    · cases hd : decodeURIComponent? l with
      | none => exact .inr rfl
      | some d => exact .inl rfl

/-- With an empty allow-list every placeholder replacement is either the
empty string or the propagated decode exception. -/
theorem placeholderRepl_nil (pref : Option Str) (a : PKind × Str) :
    placeholderRepl [] pref a = .ok [] ∨
    placeholderRepl [] pref a = .error () := by
  unfold placeholderRepl
  rcases normalizeTag_nil (some a.2) with h | h <;> rw [h]
  · rcases normalizeTag_nil pref with h2 | h2 <;> rw [h2]
    · exact .inl rfl
    · exact .inr rfl
  · exact .inr rfl

/-- A scan whose replacement callback only ever produces the empty string
computes the pure deletion scan whenever it does not raise. -/
theorem scanGoE_deletes {α} (m : Str → Option (Nat × α))
    (f : α → Except Unit Str)
    (hf : ∀ a, f a = .ok [] ∨ f a = .error ()) :
    ∀ (fuel : Nat) (l out : Str), scanGoE m f fuel l = .ok out →
      out = scanGo m (fun _ => []) fuel l := by
  intro fuel
  induction fuel with
  | zero =>
    intro l out h
    cases l with
    | nil =>
      rw [show scanGoE m f 0 [] = (.ok [] : Except Unit Str) from rfl] at h
      injection h with h
      rw [← h]; rfl
    | cons c r =>
      rw [show scanGoE m f 0 (c :: r) = (.ok (c :: r) : Except Unit Str) from
        rfl] at h
      injection h with h
      rw [← h]; rfl
  | succ n ih =>
    intro l out h
    cases l with
    | nil =>
      rw [show scanGoE m f (n + 1) [] = (.ok [] : Except Unit Str) from rfl] at h
      injection h with h
      rw [← h]; rfl
    | cons c rest =>
      unfold scanGo
      cases hm : m (c :: rest) with
      | none =>
        cases hres : scanGoE m f n rest with
        | ok tail =>
          have h2 : (Except.ok (c :: tail) : Except Unit Str) = Except.ok out := by
            rw [← h]
            show _ = scanGoE m f (n + 1) (c :: rest)
            unfold scanGoE
            rw [hm, hres]
            rfl
          injection h2 with h2
          rw [← h2]
          exact congrArg (c :: ·) (ih rest tail hres)
        | error e =>
          have h2 : (Except.error e : Except Unit Str) = Except.ok out := by
            rw [← h]
            show _ = scanGoE m f (n + 1) (c :: rest)
            unfold scanGoE
            rw [hm, hres]
            rfl
          exact Except.noConfusion h2
      | some ka =>
        obtain ⟨k, a⟩ := ka
        rcases hf a with hok | herr
        · cases hres : scanGoE m f n (rest.drop k) with
          | ok tail =>
            have h2 : (Except.ok (([] : Str) ++ tail) : Except Unit Str) =
                Except.ok out := by
              rw [← h]
              show _ = scanGoE m f (n + 1) (c :: rest)
              unfold scanGoE
              rw [hm]
              show _ = (do
                let rep ← f a
                let tail ← scanGoE m f n (rest.drop k)
                pure (rep ++ tail) : Except Unit Str)
              rw [hok, hres]
              rfl
            injection h2 with h2
            rw [← h2]
            exact congrArg (([] : Str) ++ ·) (ih _ tail hres)
          | error e =>
            have h2 : (Except.error e : Except Unit Str) = Except.ok out := by
              rw [← h]
              show _ = scanGoE m f (n + 1) (c :: rest)
              unfold scanGoE
              rw [hm]
              show _ = (do
                let rep ← f a
                let tail ← scanGoE m f n (rest.drop k)
                pure (rep ++ tail) : Except Unit Str)
              rw [hok, hres]
              rfl
            exact Except.noConfusion h2
        · have h2 : (Except.error () : Except Unit Str) = Except.ok out := by
            rw [← h]
            show _ = scanGoE m f (n + 1) (c :: rest)
            unfold scanGoE
            rw [hm]
            show _ = (do
              let rep ← f a
              let tail ← scanGoE m f n (rest.drop k)
              pure (rep ++ tail) : Except Unit Str)
            rw [herr]
            rfl
          exact Except.noConfusion h2

/-- C8: when the allow-list failed to load (the Registry is empty), all tag
features are inert: extraction always returns the empty list, canonicalization
never returns a tag, every placeholder is deleted (the conversion equals the
pure deletion scan whenever it returns), and no footer is appended. -/
theorem emptyAllowList_inert :
    (∀ text, extractTagsFrom [] text = []) ∧
    (∀ s, normalizeTag [] s = .ok none ∨ normalizeTag [] s = .error ()) ∧
    (∀ reply pref out, convertPlaceholders [] reply pref = .ok out →
      out = scanGo matchPlaceholder (fun _ => []) reply.length reply) ∧
    (∀ pref inbound txt, footerTags [] pref inbound txt = [] ∧
      appendFooter [] pref inbound txt = txt) := by
  have hfilter : ∀ l : List Str,
      l.filter (fun t => ([] : List Str).contains t &&
        !TAG_DENYLIST_FOOTER.contains t) = [] := by
    intro l
    induction l with
    | nil => rfl
    | cons x r ih => simp [List.filter_cons, ih]
  refine ⟨?_, normalizeTag_nil, ?_, ?_⟩
  · intro text
    simp [extractTagsFrom]
  · intro reply pref out h
    unfold convertPlaceholders at h
    split at h
    · rename_i hr
      subst hr
      injection h with h
      rw [← h]
      rfl
    · exact scanGoE_deletes _ _ (placeholderRepl_nil pref) _ _ _ h
  · intro pref inbound txt
    have hft : footerTags [] pref inbound txt = [] := by
      unfold footerTags
      rw [hfilter]
      rfl
    refine ⟨hft, ?_⟩
    unfold appendFooter
    rw [hft]

/-- Witness for C8 at concrete inputs. -/
theorem emptyAllowList_inert_witness :
    extractTagsFrom [] ("anxiety and sleep".toList) = [] ∧
    (normalizeTag [] (some ("Sleep".toList)) = .ok none ∨
      normalizeTag [] (some ("Sleep".toList)) = .error ()) ∧
    (" thanks".toList : Str) = scanGo matchPlaceholder (fun _ => [])
      ("[SUPPLEMENTS_TAG: Sleep] thanks".toList).length
      ("[SUPPLEMENTS_TAG: Sleep] thanks".toList) ∧
    (footerTags [] none [] ("hello".toList) = [] ∧
      appendFooter [] none [] ("hello".toList) = "hello".toList) :=
  ⟨emptyAllowList_inert.1 _,
   emptyAllowList_inert.2.1 _,
   emptyAllowList_inert.2.2.1 _ none (" thanks".toList) (by decide),
   emptyAllowList_inert.2.2.2 none [] _⟩

/- ====== C2 lemmas ====== -/

theorem ciStarts_containsSubCI {w t : Str} (h : ciStarts w t = true) :
    containsSubCI w t = true := by
  cases t with
  | nil => exact h
  | cons c r =>
    unfold containsSubCI
    rw [h]
    rfl

theorem containsSubCI_append_left {w t : Str} (pre : Str)
    (h : containsSubCI w t = true) : containsSubCI w (pre ++ t) = true := by
  induction pre with
  | nil => simpa using h
  | cons c r ih =>
    show containsSubCI w (c :: (r ++ t)) = true
    unfold containsSubCI
    rw [ih]
    simp

theorem suffix_ciStarts_contains {w t s : Str} (hs : t <:+ s)
    (h : ciStarts w t = true) : containsSubCI w s = true := by
  obtain ⟨pre, rfl⟩ := hs
  exact containsSubCI_append_left pre (ciStarts_containsSubCI h)

theorem containsSubCI_cons_false {w : Str} {c : Char} {r : Str}
    (h : containsSubCI w (c :: r) = false) : containsSubCI w r = false := by
  unfold containsSubCI at h
  exact (Bool.or_eq_false_iff.mp h).2

theorem matchWords_starts {w : Str} {ws : List Str} {s : Str} {n : Nat}
    (h : matchWords (w :: ws) s = some n) : ciStarts w s = true := by
  cases ws with
  | nil =>
    unfold matchWords at h
    split at h
    · assumption
    · cases h
  | cons w2 ws2 =>
    unfold matchWords at h
    split at h
    · assumption
    · cases h

theorem headerRest_none {w : Str} {ws : List Str} {s : Str}
    (h : containsSubCI w s = false) : headerRest (w :: ws) s = none := by
  unfold headerRest
  cases hmw : matchWords (w :: ws) ((starSplit s).2.dropWhile jsWs) with
  | none => rfl
  | some nw =>
    exfalso
    have hci := matchWords_starts hmw
    have hsuf : ((starSplit s).2.dropWhile jsWs) <:+ s := by
      refine (List.dropWhile_suffix _).trans ?_
      unfold starSplit
      split
      · exact List.drop_suffix _ _
      · exact List.suffix_refl _
    have hc := suffix_ciStarts_contains hsuf hci
    rw [h] at hc
    cases hc

theorem headerFindGo_none {w : Str} {ws : List Str} :
    ∀ {l : Str}, containsSubCI w l = false → headerFindGo (w :: ws) l = none := by
  intro l
  induction l with
  | nil => intro _; rfl
  | cons c r ih =>
    intro h
    have hr := containsSubCI_cons_false h
    unfold headerFindGo
    split
    · rw [headerRest_none hr, ih hr]
      rfl
    · rw [ih hr]
      rfl

theorem replaceHeaderOnce_id {w : Str} {ws : List Str} {f : Str → Str} {s : Str}
    (h : containsSubCI w s = false) : replaceHeaderOnce (w :: ws) f s = s := by
  unfold replaceHeaderOnce headerFind
  rw [headerRest_none h, headerFindGo_none h]

theorem matchMdLink_none {lit : Str} {c : Char} {r : Str} (hc : c ≠ '[') :
    matchMdLink lit (c :: r) = none := by
  simp only [matchMdLink]
  rw [if_pos hc]

theorem scanGo_id_of_suffix {α} (m : Str → Option (Nat × α)) (f : α → Str) :
    ∀ (l : Str), (∀ (c : Char) (rest : Str), (c :: rest) <:+ l →
      m (c :: rest) = none) → ∀ fuel, scanGo m f fuel l = l := by
  intro l
  induction l with
  | nil => intro _ fuel; cases fuel <;> rfl
  | cons c rest ih =>
    intro h fuel
    cases fuel with
    | zero => rfl
    | succ n =>
      unfold scanGo
      rw [h c rest (List.suffix_refl _),
          ih (fun d rd hsuf => h d rd (hsuf.trans (List.suffix_cons c rest))) n]

theorem rmLinks_id {lit s : Str} (h : '[' ∉ s) : rmLinks lit s = s := by
  unfold rmLinks
  refine scanGo_id_of_suffix _ _ s ?_ _
  intro c rest hsuf
  refine matchMdLink_none ?_
  rintro rfl
  exact h (hsuf.subset (List.mem_cons_self _ _))

theorem injectOne_id {w : Str} {ws : List Str} {lit : Str} {line? : Option Str}
    {s : Str} (hw : containsSubCI w s = false) (hb : '[' ∉ s) :
    injectOne (w :: ws) lit line? s = s := by
  unfold injectOne
  rw [rmLinks_id hb, replaceHeaderOnce_id hw]

/- tidy-pass lemmas -/

theorem matchNl3_some {c : Char} {rest : Str} {k : Nat} {u : Unit}
    (h : matchNl3 (c :: rest) = some (k, u)) :
    ∃ r, rest = '\n' :: '\n' :: r ∧ c = '\n' ∧
      k = 2 + (r.takeWhile (fun x => x = '\n')).length := by
  cases rest with
  | nil => simp [matchNl3] at h
  | cons c2 rest2 =>
    cases rest2 with
    | nil => simp [matchNl3] at h
    | cons c3 r =>
      simp only [matchNl3] at h
      split at h
      · rename_i hcond
        simp only [Bool.and_eq_true, decide_eq_true_eq] at hcond
        obtain ⟨⟨rfl, rfl⟩, rfl⟩ := hcond
        injection h with h
        injection h with h1 h2
        exact ⟨r, rfl, rfl, h1.symm⟩
      · cases h

theorem matchNl3_none_of_ne {c : Char} {rest : Str} (hc : c ≠ '\n') :
    matchNl3 (c :: rest) = none := by
  cases hm : matchNl3 (c :: rest) with
  | none => rfl
  | some p =>
    obtain ⟨k, u⟩ := p
    obtain ⟨r, _, rfl, _⟩ := matchNl3_some hm
    exact absurd rfl hc

theorem scanNl_head {d : Char} {l : Str} (hd : l.head? = some d)
    (hnl : d ≠ '\n') (fuel : Nat) :
    (scanGo matchNl3 (fun _ => '\n' :: ['\n']) fuel l).head? = some d := by
  cases l with
  | nil => cases hd
  | cons c rest =>
    simp only [List.head?_cons, Option.some.injEq] at hd
    subst hd
    cases fuel with
    | zero => rfl
    | succ n =>
      unfold scanGo
      rw [matchNl3_none_of_ne hnl]
      rfl

theorem scanNl_starts_nl {fuel : Nat} {l : Str}
    (h : (scanGo matchNl3 (fun _ => '\n' :: ['\n']) fuel l).head? = some '\n') :
    l.head? = some '\n' := by
  cases l with
  | nil =>
    rw [show scanGo matchNl3 (fun _ => '\n' :: ['\n']) fuel [] = [] from by
      cases fuel <;> rfl] at h
    cases h
  | cons c rest =>
    cases fuel with
    | zero => exact h
    | succ n =>
      unfold scanGo at h
      cases hm : matchNl3 (c :: rest) with
      | none =>
        rw [hm] at h
        have h2 : some c = some '\n' := by rw [← h]; rfl
        injection h2 with h2
      | some p =>
        obtain ⟨k, u⟩ := p
        obtain ⟨r, hrest, rfl, _⟩ := matchNl3_some hm
        rfl

theorem litStarts_nl1 {t : Str} (h : litStarts ['\n'] t = true) :
    t.head? = some '\n' := by
  cases t with
  | nil => cases h
  | cons d r =>
    simp only [litStarts, Bool.and_eq_true, decide_eq_true_eq] at h
    rw [h.1]
    rfl

theorem scanNl_starts_nl2 {fuel : Nat} {l : Str}
    (h : litStarts ('\n' :: ['\n'])
      (scanGo matchNl3 (fun _ => '\n' :: ['\n']) fuel l) = true) :
    litStarts ('\n' :: ['\n']) l = true := by
  cases l with
  | nil =>
    rw [show scanGo matchNl3 (fun _ => '\n' :: ['\n']) fuel [] = [] from by
      cases fuel <;> rfl] at h
    cases h
  | cons c rest =>
    cases fuel with
    | zero => exact h
    | succ n =>
      unfold scanGo at h
      cases hm : matchNl3 (c :: rest) with
      | none =>
        rw [hm] at h
        have h2 : litStarts ('\n' :: ['\n'])
            (c :: scanGo matchNl3 (fun _ => '\n' :: ['\n']) n rest) = true := h
        simp only [litStarts, Bool.and_eq_true, decide_eq_true_eq] at h2
        obtain ⟨rfl, h3⟩ := h2
        have h4 : litStarts ['\n']
            (scanGo matchNl3 (fun _ => '\n' :: ['\n']) n rest) = true := by
          cases hout : scanGo matchNl3 (fun _ => '\n' :: ['\n']) n rest with
          | nil => rw [hout] at h3; exact absurd h3 (by simp [litStarts])
          | cons d o2 =>
            rw [hout] at h3
            simp only [litStarts, Bool.and_eq_true, decide_eq_true_eq] at h3 ⊢
            exact ⟨h3.1, trivial⟩
        have h5 := scanNl_starts_nl (litStarts_nl1 h4)
        cases rest with
        | nil => cases h5
        | cons d r2 =>
          simp only [List.head?_cons, Option.some.injEq] at h5
          subst h5
          simp [litStarts]
      | some p =>
        obtain ⟨k, u⟩ := p
        obtain ⟨r, hrest, rfl, _⟩ := matchNl3_some hm
        subst hrest
        rfl

theorem litStarts_containsSub {w t : Str} (h : litStarts w t = true) :
    containsSub w t = true := by
  cases t with
  | nil => exact h
  | cons c r =>
    unfold containsSub
    rw [h]
    rfl

theorem containsSub_append_left {w t : Str} (pre : Str)
    (h : containsSub w t = true) : containsSub w (pre ++ t) = true := by
  induction pre with
  | nil => simpa using h
  | cons c r ih =>
    show containsSub w (c :: (r ++ t)) = true
    unfold containsSub
    rw [ih]
    simp

theorem suffix_litStarts_contains {w t s : Str} (hs : t <:+ s)
    (h : litStarts w t = true) : containsSub w s = true := by
  obtain ⟨pre, rfl⟩ := hs
  exact containsSub_append_left pre (litStarts_containsSub h)

theorem dropLen_takeWhile (p : Char → Bool) (l : Str) :
    l.drop (l.takeWhile p).length = l.dropWhile p := by
  induction l with
  | nil => rfl
  | cons c r ih =>
    rw [List.takeWhile_cons, List.dropWhile_cons]
    split
    · simpa using ih
    · rfl

theorem head_dropWhile_false {p : Char → Bool} {l : Str} {d : Char}
    (h : (l.dropWhile p).head? = some d) : p d = false := by
  induction l with
  | nil => cases h
  | cons c r ih =>
    rw [List.dropWhile_cons] at h
    split at h
    · exact ih h
    · rename_i hc
      simp only [List.head?_cons, Option.some.injEq] at h
      subst h
      simpa using hc

theorem scanNl_noTriple : ∀ (fuel : Nat) (l : Str), l.length ≤ fuel →
    containsSub ('\n' :: '\n' :: ['\n'])
      (scanGo matchNl3 (fun _ => '\n' :: ['\n']) fuel l) = false := by
  intro fuel
  induction fuel with
  | zero =>
    intro l hl
    have hnil : l = [] := by
      cases l with
      | nil => rfl
      | cons c r => simp at hl
    subst hnil
    rfl
  | succ n ih =>
    intro l hl
    cases l with
    | nil => rfl
    | cons c rest =>
      have hlen : rest.length ≤ n := by
        simp only [List.length_cons] at hl
        omega
      unfold scanGo
      cases hm : matchNl3 (c :: rest) with
      | none =>
        show (litStarts ('\n' :: '\n' :: ['\n'])
            (c :: scanGo matchNl3 (fun _ => '\n' :: ['\n']) n rest) ||
          containsSub ('\n' :: '\n' :: ['\n'])
            (scanGo matchNl3 (fun _ => '\n' :: ['\n']) n rest)) = false
        rw [Bool.or_eq_false_iff]
        refine ⟨?_, ih rest hlen⟩
        cases hlit : litStarts ('\n' :: '\n' :: ['\n'])
            (c :: scanGo matchNl3 (fun _ => '\n' :: ['\n']) n rest) with
        | false => rfl
        | true =>
          exfalso
          simp only [litStarts, Bool.and_eq_true, decide_eq_true_eq] at hlit
          obtain ⟨rfl, hlit2⟩ := hlit
          have h2 : litStarts ('\n' :: ['\n'])
              (scanGo matchNl3 (fun _ => '\n' :: ['\n']) n rest) = true := by
            cases hout : scanGo matchNl3 (fun _ => '\n' :: ['\n']) n rest with
            | nil => rw [hout] at hlit2; exact absurd hlit2 (by simp [litStarts])
            | cons d o2 =>
              rw [hout] at hlit2
              simp only [litStarts, Bool.and_eq_true, decide_eq_true_eq] at hlit2 ⊢
              cases o2 with
              | nil => exact absurd hlit2.2 (by simp [litStarts])
              | cons e o3 =>
                simp only [litStarts, Bool.and_eq_true, decide_eq_true_eq] at hlit2
                exact ⟨hlit2.1, by simp [litStarts, hlit2.2.1]⟩
          have h3 := scanNl_starts_nl2 h2
          cases rest with
          | nil => cases h3
          | cons d r2 =>
            cases r2 with
            | nil =>
              simp only [litStarts, Bool.and_eq_true, decide_eq_true_eq] at h3
              exact absurd h3.2 (by simp [litStarts])
            | cons e r3 =>
              simp only [litStarts, Bool.and_eq_true, decide_eq_true_eq] at h3
              obtain ⟨rfl, rfl, -⟩ := h3
              rw [show matchNl3 ('\n' :: '\n' :: '\n' :: r3) =
                some (2 + (r3.takeWhile (fun x => x = '\n')).length, ()) from by
                  simp [matchNl3]] at hm
              cases hm
      | some p =>
        obtain ⟨k, u⟩ := p
        obtain ⟨r, hrest, rfl, hk⟩ := matchNl3_some hm
        subst hrest
        have hdrop : ('\n' :: '\n' :: r).drop k =
            r.dropWhile (fun x => x = '\n') := by
          rw [hk, Nat.add_comm 2 _]
          show r.drop (r.takeWhile (fun x => x = '\n')).length =
            r.dropWhile (fun x => x = '\n')
          exact dropLen_takeWhile _ r
        show containsSub ('\n' :: '\n' :: ['\n'])
          ('\n' :: '\n' :: scanGo matchNl3 (fun _ => '\n' :: ['\n']) n
            (('\n' :: '\n' :: r).drop k)) = false
        rw [hdrop]
        have hRlen : (r.dropWhile (fun x => x = '\n')).length ≤ n := by
          have h1 := (List.dropWhile_sublist (l := r)
            (p := fun x => x = '\n')).length_le
          simp only [List.length_cons] at hl
          omega
        have hRhead : ∀ hd, (r.dropWhile (fun x => x = '\n')).head? = some hd →
            hd ≠ '\n' := by
          intro hd hhd
          have h6 := head_dropWhile_false hhd
          simpa using h6
        show (litStarts ('\n' :: '\n' :: ['\n'])
            ('\n' :: '\n' :: scanGo matchNl3 (fun _ => '\n' :: ['\n']) n
              (r.dropWhile (fun x => x = '\n'))) ||
          (litStarts ('\n' :: '\n' :: ['\n'])
            ('\n' :: scanGo matchNl3 (fun _ => '\n' :: ['\n']) n
              (r.dropWhile (fun x => x = '\n'))) ||
          containsSub ('\n' :: '\n' :: ['\n'])
            (scanGo matchNl3 (fun _ => '\n' :: ['\n']) n
              (r.dropWhile (fun x => x = '\n'))))) = false
        rw [Bool.or_eq_false_iff, Bool.or_eq_false_iff]
        refine ⟨?_, ?_, ih _ hRlen⟩
        · cases hlit : litStarts ('\n' :: '\n' :: ['\n'])
              ('\n' :: '\n' :: scanGo matchNl3 (fun _ => '\n' :: ['\n']) n
                (r.dropWhile (fun x => x = '\n'))) with
          | false => rfl
          | true =>
            exfalso
            simp only [litStarts, Bool.and_eq_true, decide_eq_true_eq] at hlit
            have h4 : (scanGo matchNl3 (fun _ => '\n' :: ['\n']) n
                (r.dropWhile (fun x => x = '\n'))).head? = some '\n' := by
              apply litStarts_nl1
              cases hout : scanGo matchNl3 (fun _ => '\n' :: ['\n']) n
                  (r.dropWhile (fun x => x = '\n')) with
              | nil => rw [hout] at hlit; exact absurd hlit.2.2 (by simp [litStarts])
              | cons d o2 =>
                rw [hout] at hlit
                simp only [litStarts, Bool.and_eq_true, decide_eq_true_eq] at hlit ⊢
                exact ⟨hlit.2.2.1, trivial⟩
            have h5 := scanNl_starts_nl h4
            exact hRhead '\n' h5 rfl
        · cases hlit : litStarts ('\n' :: '\n' :: ['\n'])
              ('\n' :: scanGo matchNl3 (fun _ => '\n' :: ['\n']) n
                (r.dropWhile (fun x => x = '\n'))) with
          | false => rfl
          | true =>
            exfalso
            simp only [litStarts, Bool.and_eq_true, decide_eq_true_eq] at hlit
            have h2 : litStarts ('\n' :: ['\n'])
                (scanGo matchNl3 (fun _ => '\n' :: ['\n']) n
                  (r.dropWhile (fun x => x = '\n'))) = true := by
              cases hout : scanGo matchNl3 (fun _ => '\n' :: ['\n']) n
                  (r.dropWhile (fun x => x = '\n')) with
              | nil => rw [hout] at hlit; exact absurd hlit.2 (by simp [litStarts])
              | cons d o2 =>
                rw [hout] at hlit
                simp only [litStarts, Bool.and_eq_true, decide_eq_true_eq] at hlit ⊢
                cases o2 with
                | nil => exact absurd hlit.2.2 (by simp [litStarts])
                | cons e o3 =>
                  simp only [litStarts, Bool.and_eq_true, decide_eq_true_eq] at hlit
                  exact ⟨hlit.2.1, by simp [litStarts, hlit.2.2.1]⟩
            have h3 := scanNl_starts_nl (litStarts_nl1 (by
              cases hout : scanGo matchNl3 (fun _ => '\n' :: ['\n']) n
                  (r.dropWhile (fun x => x = '\n')) with
              | nil => rw [hout] at h2; exact absurd h2 (by simp [litStarts])
              | cons d o2 =>
                rw [hout] at h2
                simp only [litStarts, Bool.and_eq_true, decide_eq_true_eq] at h2 ⊢
                exact ⟨h2.1, trivial⟩))
            exact hRhead '\n' h3 rfl

theorem tidyNewlines_noTriple (s : Str) :
    containsSub ('\n' :: '\n' :: ['\n']) (tidyNewlines s) = false :=
  scanNl_noTriple s.length s le_rfl

/-- The tidy pass is idempotent: its output contains no run of three
newlines, so a second scan finds nothing to replace. -/
theorem tidyNewlines_idem (s : Str) :
    tidyNewlines (tidyNewlines s) = tidyNewlines s := by
  show scanGo matchNl3 (fun _ => '\n' :: ['\n']) (tidyNewlines s).length
    (tidyNewlines s) = tidyNewlines s
  refine scanGo_id_of_suffix _ _ _ ?_ _
  intro c rest hsuf
  cases hm : matchNl3 (c :: rest) with
  | none => rfl
  | some p =>
    exfalso
    obtain ⟨k, u⟩ := p
    obtain ⟨r, hrest, rfl, _⟩ := matchNl3_some hm
    subst hrest
    have hlit : litStarts ('\n' :: '\n' :: ['\n'])
        ('\n' :: '\n' :: '\n' :: r) = true := by simp [litStarts]
    have hcon := suffix_litStarts_contains hsuf hlit
    have h0 := tidyNewlines_noTriple s
    rw [hcon] at h0
    cases h0

theorem mem_scanNl : ∀ (fuel : Nat) (l : Str) (c : Char),
    c ∈ scanGo matchNl3 (fun _ => '\n' :: ['\n']) fuel l → c ∈ l := by
  intro fuel
  induction fuel with
  | zero =>
    intro l c h
    cases l with
    | nil => cases h
    | cons d r => exact h
  | succ n ih =>
    intro l c h
    cases l with
    | nil => cases h
    | cons d rest =>
      unfold scanGo at h
      cases hm : matchNl3 (d :: rest) with
      | none =>
        rw [hm] at h
        have h2 : c ∈ d :: scanGo matchNl3 (fun _ => '\n' :: ['\n']) n rest := h
        rcases List.mem_cons.mp h2 with rfl | h3
        · exact List.mem_cons_self _ _
        · exact List.mem_cons_of_mem _ (ih rest c h3)
      | some p =>
        obtain ⟨k, u⟩ := p
        obtain ⟨r, hrest, rfl, _⟩ := matchNl3_some hm
        rw [hm] at h
        have h2 : c ∈ '\n' :: '\n' :: scanGo matchNl3 (fun _ => '\n' :: ['\n']) n
            (rest.drop k) := h
        rcases List.mem_cons.mp h2 with rfl | h3
        · exact List.mem_cons_self _ _
        · rcases List.mem_cons.mp h3 with rfl | h4
          · exact List.mem_cons_self _ _
          · exact List.mem_cons_of_mem _
              (List.drop_subset _ _ (ih _ c h4))

theorem toLower_eq_nl {c : Char} (h : c.toLower = '\n') : c = '\n' := by
  simp only [Char.toLower] at h
  split at h
  · rename_i hc
    simp only [ge_iff_le, decide_eq_true_eq, Bool.and_eq_true] at hc
    have hvalid : Nat.isValidChar (c.toNat + 32) := by
      left
      omega
    have hv : (Char.ofNat (c.toNat + 32)).toNat = c.toNat + 32 := by
      unfold Char.ofNat
      rw [dif_pos hvalid]
      rfl
    rw [h] at hv
    have h10 : ('\n').toNat = 10 := rfl
    omega
  · exact h

theorem ciEq_nl {p : Char} (h : ciEq '\n' p = true) : p = '\n' := by
  unfold ciEq at h
  simp only [decide_eq_true_eq] at h
  exact toLower_eq_nl h.symm

theorem scanNl_starts : ∀ (fuel : Nat) (w l : Str), '\n' ∉ w →
    ciStarts w (scanGo matchNl3 (fun _ => '\n' :: ['\n']) fuel l) = true →
    ciStarts w l = true := by
  intro fuel
  induction fuel with
  | zero =>
    intro w l hw h
    cases l with
    | nil => exact h
    | cons c r => exact h
  | succ n ih =>
    intro w l hw h
    cases l with
    | nil =>
      cases w with
      | nil => rfl
      | cons p ps => cases h
    | cons c rest =>
      unfold scanGo at h
      cases hm : matchNl3 (c :: rest) with
      | none =>
        rw [hm] at h
        cases w with
        | nil => rfl
        | cons p ps =>
          have h2 : ciStarts (p :: ps)
              (c :: scanGo matchNl3 (fun _ => '\n' :: ['\n']) n rest) = true := h
          simp only [ciStarts, Bool.and_eq_true] at h2 ⊢
          exact ⟨h2.1, ih ps rest (fun hm2 => hw (List.mem_cons_of_mem _ hm2)) h2.2⟩
      | some p0 =>
        obtain ⟨k, u⟩ := p0
        obtain ⟨r, hrest, rfl, _⟩ := matchNl3_some hm
        subst hrest
        rw [hm] at h
        cases w with
        | nil => rfl
        | cons p ps =>
          exfalso
          have h2 : ciStarts (p :: ps) ('\n' :: '\n' ::
              scanGo matchNl3 (fun _ => '\n' :: ['\n']) n
                (('\n' :: '\n' :: r).drop k)) = true := h
          simp only [ciStarts, Bool.and_eq_true] at h2
          exact hw (ciEq_nl h2.1 ▸ List.mem_cons_self _ _)

theorem containsSubCI_nil_left : ∀ l : Str, containsSubCI [] l = true := by
  intro l
  cases l <;> rfl

theorem containsSubCI_suffix_mono {w t s : Str} (hs : t <:+ s)
    (h : containsSubCI w t = true) : containsSubCI w s = true := by
  obtain ⟨pre, rfl⟩ := hs
  exact containsSubCI_append_left pre h

theorem scanNl_contains {w : Str} (hw : '\n' ∉ w) :
    ∀ (fuel : Nat) (l : Str),
    containsSubCI w (scanGo matchNl3 (fun _ => '\n' :: ['\n']) fuel l) = true →
    containsSubCI w l = true := by
  intro fuel
  induction fuel with
  | zero =>
    intro l h
    cases l with
    | nil => exact h
    | cons c r => exact h
  | succ n ih =>
    intro l h
    cases l with
    | nil => exact h
    | cons c rest =>
      unfold scanGo at h
      cases hm : matchNl3 (c :: rest) with
      | none =>
        rw [hm] at h
        have h2 : containsSubCI w
            (c :: scanGo matchNl3 (fun _ => '\n' :: ['\n']) n rest) = true := h
        unfold containsSubCI at h2
        rcases Bool.or_eq_true_iff.mp h2 with h3 | h3
        · cases w with
          | nil => exact containsSubCI_nil_left _
          | cons p ps =>
            simp only [ciStarts, Bool.and_eq_true] at h3
            have h4 := scanNl_starts n ps rest
              (fun hm2 => hw (List.mem_cons_of_mem _ hm2)) h3.2
            unfold containsSubCI
            rw [Bool.or_eq_true_iff]
            left
            simp only [ciStarts, Bool.and_eq_true]
            exact ⟨h3.1, h4⟩
        · have h5 := ih rest h3
          unfold containsSubCI
          rw [Bool.or_eq_true_iff]
          exact .inr h5
      | some p0 =>
        obtain ⟨k, u⟩ := p0
        obtain ⟨r, hrest, rfl, _⟩ := matchNl3_some hm
        subst hrest
        rw [hm] at h
        have h2 : containsSubCI w ('\n' :: '\n' ::
            scanGo matchNl3 (fun _ => '\n' :: ['\n']) n
              (('\n' :: '\n' :: r).drop k)) = true := h
        unfold containsSubCI at h2
        rcases Bool.or_eq_true_iff.mp h2 with h3 | h3
        · cases w with
          | nil => exact containsSubCI_nil_left _
          | cons p ps =>
            exfalso
            simp only [ciStarts, Bool.and_eq_true] at h3
            exact hw (ciEq_nl h3.1 ▸ List.mem_cons_self _ _)
        · unfold containsSubCI at h3
          rcases Bool.or_eq_true_iff.mp h3 with h4 | h4
          · cases w with
            | nil => exact containsSubCI_nil_left _
            | cons p ps =>
              exfalso
              simp only [ciStarts, Bool.and_eq_true] at h4
              exact hw (ciEq_nl h4.1 ▸ List.mem_cons_self _ _)
          · have h5 := ih _ h4
            have h6 := containsSubCI_suffix_mono
              (List.drop_suffix k ('\n' :: '\n' :: r)) h5
            unfold containsSubCI
            rw [Bool.or_eq_true_iff]
            exact .inr h6

theorem tidyNewlines_ne_nil {x : Str} (hx : x ≠ []) : tidyNewlines x ≠ [] := by
  cases x with
  | nil => exact absurd rfl hx
  | cons c rest =>
    show scanGo matchNl3 (fun _ => '\n' :: ['\n']) (c :: rest).length
      (c :: rest) ≠ []
    rw [show (c :: rest).length = rest.length + 1 from rfl]
    unfold scanGo
    cases hm : matchNl3 (c :: rest) with
    | none => simp
    | some p => simp

/-- C2 (amended): `ensureSectionsHaveOneLink` is idempotent on texts that
contain no section heading words (no case-insensitive occurrence of
`Services`, `Nutritional` or `Articles`) and no `[` character: on such
texts it only collapses newline runs, which is idempotent.  (In general it
is NOT idempotent, see `ensureSections_not_idempotent`.) -/
theorem ensureSections_idempotent_no_sections (allowed : List Str)
    (pref : Option Str) (x : Str)
    (hs : containsSubCI ("Services".toList) x = false)
    (hn : containsSubCI ("Nutritional".toList) x = false)
    (ha : containsSubCI ("Articles".toList) x = false)
    (hb : '[' ∉ x) :
    (ensureSectionsHaveOneLink allowed x pref).bind
      (fun y => ensureSectionsHaveOneLink allowed y pref) =
    ensureSectionsHaveOneLink allowed x pref := by
  by_cases hx : x = []
  · subst hx
    have h0 : ensureSectionsHaveOneLink allowed [] pref = .ok [] := by
      unfold ensureSectionsHaveOneLink
      rw [if_pos rfl]
    rw [h0]
    show ensureSectionsHaveOneLink allowed [] pref = .ok []
    exact h0
  · cases hnt : normalizeTag allowed pref with
    | error e =>
      have h1 : ensureSectionsHaveOneLink allowed x pref = .error e := by
        unfold ensureSectionsHaveOneLink
        rw [if_neg hx, hnt]
        rfl
      rw [h1]
      rfl
    | ok baseTag =>
      have hval : ∀ y : Str, y ≠ [] →
          containsSubCI ("Services".toList) y = false →
          containsSubCI ("Nutritional".toList) y = false →
          containsSubCI ("Articles".toList) y = false → '[' ∉ y →
          ensureSectionsHaveOneLink allowed y pref = .ok (tidyNewlines y) := by
        intro y hy h1 h2 h3 h4
        unfold ensureSectionsHaveOneLink
        rw [if_neg hy, hnt]
        show Except.ok (tidyNewlines
          (injectOne ["Articles".toList] artUrlLit (aLineOf baseTag)
            (injectOne ["Nutritional".toList, "Supplements".toList] suppUrlLit
              (pLineOf baseTag)
              (injectOne ["Services".toList] srvUrlLit
                (sLineOf allowed baseTag) y)))) = _
        rw [injectOne_id h1 h4, injectOne_id h2 h4, injectOne_id h3 h4]
      have hfx := hval x hx hs hn ha hb
      rw [hfx]
      show ensureSectionsHaveOneLink allowed (tidyNewlines x) pref =
        .ok (tidyNewlines x)
      have h1 : containsSubCI ("Services".toList) (tidyNewlines x) = false := by
        cases hc : containsSubCI ("Services".toList) (tidyNewlines x) with
        | false => rfl
        | true =>
          have := scanNl_contains (by decide) x.length x hc
          rw [hs] at this
          cases this
      have h2 : containsSubCI ("Nutritional".toList) (tidyNewlines x) = false := by
        cases hc : containsSubCI ("Nutritional".toList) (tidyNewlines x) with
        | false => rfl
        | true =>
          have := scanNl_contains (by decide) x.length x hc
          rw [hn] at this
          cases this
      have h3 : containsSubCI ("Articles".toList) (tidyNewlines x) = false := by
        cases hc : containsSubCI ("Articles".toList) (tidyNewlines x) with
        | false => rfl
        | true =>
          have := scanNl_contains (by decide) x.length x hc
          rw [ha] at this
          cases this
      have h4 : '[' ∉ tidyNewlines x := fun hm => hb (mem_scanNl _ _ _ hm)
      rw [hval (tidyNewlines x) (tidyNewlines_ne_nil hx) h1 h2 h3 h4,
          tidyNewlines_idem]

/-- Counterexample for C2 as stated: applying the Section Enforcer twice to
`**Services:**` (with an empty allow-list and no preferred tag) appends one
newline after the heading on the first pass and a second newline on the
second pass, so the results differ. -/
theorem ensureSections_not_idempotent :
    ensureSectionsHaveOneLink [] ("**Services:**".toList) none =
      .ok ("**Services:**\n".toList) ∧
    ensureSectionsHaveOneLink [] ("**Services:**\n".toList) none =
      .ok ("**Services:**\n\n".toList) ∧
    ("**Services:**\n\n".toList : Str) ≠ ("**Services:**\n".toList : Str) :=
  ⟨by decide, by decide, by decide⟩

/-- Witness for the amended C2 at a concrete input with newline runs. -/
theorem ensureSections_idempotent_no_sections_witness :
    (containsSubCI ("Services".toList) ("hello\n\n\n\nworld".toList) = false ∧
      containsSubCI ("Nutritional".toList) ("hello\n\n\n\nworld".toList) = false ∧
      containsSubCI ("Articles".toList) ("hello\n\n\n\nworld".toList) = false ∧
      '[' ∉ ("hello\n\n\n\nworld".toList : Str)) ∧
    (ensureSectionsHaveOneLink ["Sleep".toList] ("hello\n\n\n\nworld".toList)
        (some ("Sleep".toList))).bind
      (fun y => ensureSectionsHaveOneLink ["Sleep".toList] y
        (some ("Sleep".toList))) =
    ensureSectionsHaveOneLink ["Sleep".toList] ("hello\n\n\n\nworld".toList)
      (some ("Sleep".toList)) :=
  ⟨⟨by decide, by decide, by decide, by decide⟩,
    ensureSections_idempotent_no_sections ["Sleep".toList]
      (some ("Sleep".toList)) ("hello\n\n\n\nworld".toList)
      (by decide) (by decide) (by decide) (by decide)⟩
